import Mathlib

/-!
Verification of the ev3dev device-discovery engine (`deviceDir` scanner and the
`address` codec) against its natural-language specification.

The Go source is embedded shallowly:

* Go strings and byte slices become `GoString := List Nat` (one `Nat` per byte).
* The fixed `[64]byte` array type `address` becomes a byte list that is 64 long
  by construction (length byte, content, zero padding), so Go's array equality
  agrees with list equality.
* Filesystem interaction is modelled by an explicit `Fs` structure: the result
  of `Readdirnames` (or `none` when listing fails) and, per directory entry,
  the raw content of its `address` attribute file (or `none` when opening the
  file fails).  `os.File.ReadAt` on an existing regular file is modelled as
  returning the file's bytes (short reads return `io.EOF`, which
  `readAttrBytes` tolerates).
* `filepath.Join(dir, name)` is modelled as `dir ++ "/" ++ name`; for the
  arguments that occur here (a fixed base directory and slash-free entry
  names produced by `Readdirnames`) `filepath.Join` reduces to exactly this.
* The state mutation of `findByAddress` becomes explicit state passing; each
  call additionally returns a ghost log of the attribute reads it performed
  (`(slot, success?)` pairs), used only to state the at-most-one-read
  properties and never consulted by the algorithm itself.
-/

/-- A Go string / byte slice: a list of byte values. -/
abbrev GoString := List Nat

/-- A Go `address` value (`type address [64]byte`): by construction always a
64-element list `length :: content ++ zero padding`. -/
abbrev Address := List Nat

/-- The only error the address codec can signal (`"address too long"`). -/
inductive AttrErr where
  | tooLong
deriving DecidableEq

deriving instance DecidableEq for Except

/-- `newAddress` from the source: rejects strings longer than 63 bytes,
otherwise stores `len(s)` in byte 0, the content in bytes `1..len(s)`, and
leaves the remaining bytes zero. -/
def newAddress (s : GoString) : Except AttrErr Address :=
  if s.length > 63 then .error .tooLong
  else .ok (s.length :: (s ++ List.replicate (63 - s.length) 0))

/-- `address.String` from the source: `string(a[1 : a[0]+1])`. -/
def addrString (a : Address) : GoString :=
  (a.drop 1).take (a.headD 0)

/-- `readAttrBytes` from the source, specialised to the 64-byte buffer used by
`readAttrAddr`: `ReadAt(p, 0)` fills the buffer with the first
`min (content.length) 64` bytes of the file (the rest of the fresh buffer
stays zero), then a single trailing newline inside the read window is
stripped.  Returns the buffer and the byte count `n`. -/
def readAttrBytes (content : GoString) : GoString × Nat :=
  let n0 := min content.length 64
  let buf := content.take n0 ++ List.replicate (64 - n0) 0
  let n := if 0 < n0 ∧ content[n0 - 1]? = some 10 then n0 - 1 else n0
  (buf, n)

/-- `readAttrAddr` from the source: read the attribute into the 64-byte
buffer, fail with "address too long" when more than 63 useful bytes remain,
otherwise shift the content up by one (`copy(a[1:], a[:n])`), store the
length in byte 0 and zero the tail. -/
def readAttrAddr (content : GoString) : Except AttrErr Address :=
  let bn := readAttrBytes content
  let n := bn.2
  if n > 63 then .error .tooLong
  else .ok (n :: (bn.1.take n ++ List.replicate (63 - n) 0))

/-- A decimal digit byte, `'0'..'9'`. -/
def isDigitByte (b : Nat) : Bool := 48 ≤ b && b ≤ 57

/-- Accumulate the exact value of a run of digit bytes; `none` on the first
non-digit. -/
def digitsValAux (acc : Nat) : GoString → Option Nat
  | [] => some acc
  | b :: r => if isDigitByte b then digitsValAux (acc * 10 + (b - 48)) r else none

/-- `strconv.Atoi` (i.e. `ParseInt(s, 10, 0)` with 64-bit `int`): an optional
single `+`/`-` sign followed by at least one digit, with the resulting value
inside `[-2^63, 2^63-1]`; anything else (including range overflow) is an
error, modelled as `none`. -/
def goAtoi (s : GoString) : Option Int :=
  match s with
  | [] => none
  | b :: rest =>
    let neg := b == 45
    let ds := if b == 43 || b == 45 then rest else s
    if ds.isEmpty then none
    else
      match digitsValAux 0 ds with
      | none => none
      | some v =>
        if neg then (if v ≤ 2 ^ 63 then some (-(v : Int)) else none)
        else (if v ≤ 2 ^ 63 - 1 then some (v : Int) else none)

/-- `deviceName` from the source: a directory entry name together with its
parsed numeric suffix. -/
structure DeviceName where
  name : GoString
  n : Int
deriving DecidableEq

/-- `strings.HasPrefix`: `hasPrefixB p s` is true when `s` starts with `p`. -/
def hasPrefixB : GoString → GoString → Bool
  | [], _ => true
  | _ :: _, [] => false
  | a :: p, b :: s => a == b && hasPrefixB p s

/-- `parseDeviceName` from the source: require the configured name stem, then
`strconv.Atoi` the remainder; on any failure return the zero `deviceName`. -/
def parseDeviceName (name stem : GoString) : DeviceName :=
  if hasPrefixB stem name then
    match goAtoi (name.drop stem.length) with
    | none => ⟨[], 0⟩
    | some k => ⟨name, k⟩
  else ⟨[], 0⟩

/-- `skipEntry` from the source: a previously scanned slot number and the
address that was read for it. -/
structure SkipEntry where
  i : Int
  addr : Address
deriving DecidableEq

/-- `deviceDir` from the source.  The `prefix` field is called `stem` here
(the original name is reserved in this development).  `n` is the high-water
mark (-1 initially), `skipped` the skip memory. -/
structure DeviceDir where
  path : GoString
  stem : GoString
  n : Int
  skipped : List SkipEntry
deriving DecidableEq

/-- `newDeviceDir` from the source. -/
def newDeviceDir (path stem : GoString) : DeviceDir :=
  ⟨path, stem, -1, []⟩

/-- The filesystem as seen by one `findByAddress` call: the outcome of
`Readdirnames` on the class directory (`none` = listing failure) and, for
each entry name, the raw content of `<entry>/address` (`none` = open
failure, i.e. the entry or its attribute is gone). -/
structure Fs where
  dirNames : Option (List GoString)
  addrFile : GoString → Option GoString

/-- Ordering used by `sort.Slice` in `deviceDir.list`. -/
def dnLE (a b : DeviceName) : Prop := a.n ≤ b.n

instance : DecidableRel dnLE := fun a b => inferInstanceAs (Decidable (a.n ≤ b.n))

instance : IsTotal DeviceName dnLE := ⟨fun a b => Int.le_total a.n b.n⟩

instance : IsTrans DeviceName dnLE := ⟨fun _ _ _ => Int.le_trans⟩

/-- `deviceDir.list` from the source: read the directory names, parse each
against the stem, drop the failures (zero values), and sort ascending by
slot number. -/
def fsList (fs : Fs) (stem : GoString) : Option (List DeviceName) :=
  match fs.dirNames with
  | none => none
  | some names =>
    some (List.insertionSort dnLE
      ((names.map (fun nm => parseDeviceName nm stem)).filter
        (fun dn => decide (dn ≠ (⟨[], 0⟩ : DeviceName)))))

/-- `filepath.Join` for a directory and a slash-free entry name. -/
def pathJoin (dir name : GoString) : GoString := dir ++ [47] ++ name

/-- The inner `for skipIndex < len(d.skipped) && d.skipped[skipIndex].i < dn.n`
cursor advance, walking the suffix of the skip memory. -/
def advanceSkipAux (m : Int) : List SkipEntry → Nat → Nat
  | [], i => i
  | e :: rest, i => if e.i < m then advanceSkipAux m rest (i + 1) else i

/-- Cursor advance over the whole skip memory starting from index `i`. -/
def advanceSkip (sk : List SkipEntry) (m : Int) (i : Nat) : Nat :=
  advanceSkipAux m (sk.drop i) i

/-- Result of one `findByAddress` call: the resolved path, an I/O failure, or
not-found.  (The source wraps these in formatted `error` values; only the
kind matters here.) -/
inductive FindResult where
  | found (p : GoString)
  | ioError
  | notFound
deriving DecidableEq

/-- A finished call: result, final scanner state, and the ghost read log —
`(slot, success?)` for every `address` attribute the call read. -/
structure LoopOut where
  res : FindResult
  dir : DeviceDir
  reads : List (Int × Bool)
deriving DecidableEq

/-- One loop iteration of `findByAddress`: either an early return (`done`) or
the state, cursor and reads with which the walk continues (`next`). -/
inductive StepOut where
  | done (out : LoopOut)
  | next (d : DeviceDir) (skipIndex : Nat) (reads : List (Int × Bool))
deriving DecidableEq

/-- The body of the `for _, dn := range deviceNames` loop in
`deviceDir.findByAddress`, for one directory entry `dn`:
advance the skip cursor; replay the skip memory if it knows this slot
(claiming it on an address match); otherwise skip slots at or below the
high-water mark; otherwise read the address attribute, advance the
high-water mark on success, and either claim the slot or append it to the
skip memory. -/
def findStep (fs : Fs) (addr : Address) (d : DeviceDir) (skipIndex : Nat)
    (dn : DeviceName) : StepOut :=
  let j := advanceSkip d.skipped dn.n skipIndex
  let below : StepOut :=
    if 0 ≤ d.n ∧ dn.n ≤ d.n then .next d j []
    else
      match fs.addrFile dn.name with
      | none => .done ⟨.ioError, d, []⟩
      | some content =>
        match readAttrAddr content with
        | .error _ => .done ⟨.ioError, d, [(dn.n, false)]⟩
        | .ok devAddr =>
          if devAddr = addr then
            .done ⟨.found (pathJoin d.path dn.name), { d with n := dn.n }, [(dn.n, true)]⟩
          else
            .next { d with n := dn.n,
                           skipped := d.skipped ++ [⟨dn.n, devAddr⟩] } j [(dn.n, true)]
  match d.skipped[j]? with
  | some e =>
    if e.i = dn.n then
      if e.addr ≠ addr then .next d j []
      else .done ⟨.found (pathJoin d.path dn.name),
        { d with skipped := d.skipped.take j ++ d.skipped.drop (j + 1) }, []⟩
    else below
  | none => below

/-- The walk over the sorted directory listing. -/
def findLoop (fs : Fs) (addr : Address) :
    DeviceDir → Nat → List DeviceName → LoopOut
  | d, _, [] => ⟨.notFound, d, []⟩
  | d, skipIndex, dn :: rest =>
    match findStep fs addr d skipIndex dn with
    | .done out => out
    | .next d' j rs =>
      let o := findLoop fs addr d' j rest
      ⟨o.res, o.dir, rs ++ o.reads⟩

/-- `deviceDir.findByAddress` from the source: list, then walk with the skip
cursor starting at 0.  A listing failure leaves the state untouched. -/
def findByAddress (fs : Fs) (d : DeviceDir) (addr : Address) : LoopOut :=
  match fsList fs d.stem with
  | none => ⟨.ioError, d, []⟩
  | some dns => findLoop fs addr d 0 dns

/-- A sequence of `resolve` calls on one scanner instance: thread the state
through and concatenate the ghost read logs. -/
def callsOut : List (Fs × Address) → DeviceDir → DeviceDir × List (Int × Bool)
  | [], d => (d, [])
  | (fs, a) :: rest, d =>
    let o := findByAddress fs d a
    let r := callsOut rest o.dir
    (r.1, o.reads ++ r.2)

/-- The address encoding a short string (total function for fixtures). -/
def mkAddr (s : GoString) : Address :=
  match newAddress s with
  | .ok a => a
  | .error _ => []

/-- Fixture: class-directory stem "s". -/
def stemS : GoString := [115]

/-- Fixture: base directory "d". -/
def dirD : GoString := [100]

/-- Fixture: one device "s-2" (a negative numeric suffix, accepted by
`strconv.Atoi`) whose address attribute reads "A". -/
def fsNeg : Fs :=
  ⟨some [[115, 45, 50]], fun nm => if nm = [115, 45, 50] then some [65] else none⟩

/-- Fixture: one device "s-3" whose address attribute reads "C". -/
def fsNeg3 : Fs :=
  ⟨some [[115, 45, 51]], fun nm => if nm = [115, 45, 51] then some [67] else none⟩

/-- Fixture: one device "s0" with address "X". -/
def fsX : Fs :=
  ⟨some [[115, 48]], fun nm => if nm = [115, 48] then some [88] else none⟩

/-- Fixture: one device "s0" with address "Z" (the slot recreated with new
content after `fsX`'s device was deleted). -/
def fsZ : Fs :=
  ⟨some [[115, 48]], fun nm => if nm = [115, 48] then some [90] else none⟩

/-- Fixture: one device "s0" whose address attribute is 64 non-newline bytes,
so that reading it fails with "address too long". -/
def fsBad : Fs :=
  ⟨some [[115, 48]], fun nm => if nm = [115, 48] then some (List.replicate 64 97) else none⟩

/-- Strict ascending order on skip entries (the skip-memory invariant). -/
def skipLT (a b : SkipEntry) : Prop := a.i < b.i

instance : DecidableRel skipLT := fun a b => inferInstanceAs (Decidable (a.i < b.i))

/-- Well-formed scanner state: skip memory strictly ascending by slot, every
recorded slot nonnegative and at or below the high-water mark. -/
def SkipOk (d : DeviceDir) : Prop :=
  List.Pairwise skipLT d.skipped ∧ ∀ e ∈ d.skipped, 0 ≤ e.i ∧ e.i ≤ d.n

instance (d : DeviceDir) : Decidable (SkipOk d) := by
  unfold SkipOk
  infer_instance

/-- All directory entries of this filesystem parse to nonnegative slot
numbers (true of every real sysfs directory, where suffixes are rendered
from unsigned kernel ids). -/
def NonnegFs (fs : Fs) (stem : GoString) : Bool :=
  match fs.dirNames with
  | none => true
  | some names => names.all (fun nm => decide (0 ≤ (parseDeviceName nm stem).n))

/-- The slot numbers whose address attribute a call successfully read. -/
def succSlots (rs : List (Int × Bool)) : List Int :=
  (rs.filter (fun e => e.2)).map (fun e => e.1)

/-- Witness for the amended C1: a two-device directory ("s0" → "A",
"s1" → "B"); `resolve "A"` claims slot 0, and an immediately following
`resolve "A"` does not return slot 0's path again. -/
def fsAB : Fs :=
  ⟨some [[115, 48], [115, 49]],
    fun nm => if nm = [115, 48] then some [65]
      else if nm = [115, 49] then some [66] else none⟩

/-- Fixture: the spec's three-sensor directory — "s0" → "C", "s1" → "A",
"s2" → "B". -/
def fs3 : Fs :=
  ⟨some [[115, 48], [115, 49], [115, 50]],
    fun nm => if nm = [115, 48] then some [67]
      else if nm = [115, 49] then some [65]
      else if nm = [115, 50] then some [66] else none⟩

/-- Fixture: the same directory after "s0" was deleted. -/
def fs3del : Fs :=
  ⟨some [[115, 49], [115, 50]],
    fun nm => if nm = [115, 49] then some [65]
      else if nm = [115, 50] then some [66] else none⟩

/-- Fixture: a directory with only non-matching entries "b0" (wrong stem)
and "sX" (non-numeric suffix), both with readable address files. -/
def fsJunk : Fs :=
  ⟨some [[98, 48], [115, 88]], fun _ => some [65]⟩

/-- Fixture: a directory whose listing itself fails. -/
def fsNone : Fs := ⟨none, fun _ => none⟩

/-- C9, first half: addresses of length at most 63 round-trip. -/
theorem newAddress_roundTrip (s : GoString) (h : s.length ≤ 63) :
    newAddress s = .ok (s.length :: (s ++ List.replicate (63 - s.length) 0)) ∧
    addrString (s.length :: (s ++ List.replicate (63 - s.length) 0)) = s := by
  constructor
  · simp [newAddress, Nat.not_lt.mpr h]
  · simp [addrString, List.take_left']

/-- C9: `format(parse(s)) = s` for strings within the 63-byte capacity, and
`parse` fails with the "address too long" error exactly when the capacity is
exceeded. -/
theorem c9_address_roundtrip (s : GoString) :
    (s.length ≤ 63 → ∃ a, newAddress s = .ok a ∧ addrString a = s) ∧
    (63 < s.length → newAddress s = .error .tooLong) := by
  constructor
  · intro h
    exact ⟨_, (newAddress_roundTrip s h).1, (newAddress_roundTrip s h).2⟩
  · intro h
    simp [newAddress, h]

/-- Witness for C9 at concrete inputs: a 2-byte string round-trips and a
64-byte string is rejected. -/
theorem c9_address_roundtrip_witness :
    (∃ a, newAddress [97, 98] = .ok a ∧ addrString a = [97, 98]) ∧
    newAddress (List.replicate 64 97) = .error .tooLong :=
  ⟨(c9_address_roundtrip [97, 98]).1 (by decide),
   (c9_address_roundtrip (List.replicate 64 97)).2 (by decide)⟩

/-- C10, amended: for content `s` of at most 63 bytes that does not itself end
in a newline byte, reading raw content `s` — or `s` followed by one trailing
newline — yields exactly the address `newAddress s` (same length byte, same
content, zero padding); and the "address too long" failure happens exactly
when at least 64 bytes are present and byte index 63 (the last byte the
64-byte buffer can see) is not a newline. -/
theorem c10_readAttrAddr_amended (s u : GoString) :
    (s.length ≤ 63 → s.getLast? ≠ some 10 → readAttrAddr s = newAddress s) ∧
    (s.length ≤ 63 → readAttrAddr (s ++ [10]) = newAddress s) ∧
    (readAttrAddr u = .error .tooLong ↔ 64 ≤ u.length ∧ u[63]? ≠ some 10) := by
  refine ⟨?_, ?_, ?_⟩
  · intro hlen hlast
    have hn0 : min s.length 64 = s.length := Nat.min_eq_left (by omega)
    have hcond : ¬(0 < s.length ∧ s[s.length - 1]? = some 10) := by
      rintro ⟨hpos, hlastElem⟩
      exact hlast (by rw [List.getLast?_eq_getElem?, hlastElem])
    simp only [readAttrAddr, readAttrBytes, hn0, hcond, if_false, if_neg hcond]
    rw [if_neg (by omega)]
    simp [newAddress, Nat.not_lt.mpr hlen, List.take_left', List.take_take,
      Nat.min_self, List.take_append_of_le_length (Nat.le_refl _)]
  · intro hlen
    have hidx : (s ++ [10])[s.length]? = some 10 := by
      simpa using List.getElem?_append_right (Nat.le_refl s.length)
    have hbytes : readAttrBytes (s ++ [10]) =
        ((s ++ [10]).take (s.length + 1) ++ List.replicate (64 - (s.length + 1)) 0,
          s.length) := by
      have hn0 : min (s ++ [10]).length 64 = s.length + 1 := by
        simp only [List.length_append, List.length_cons, List.length_nil]
        omega
      simp only [readAttrBytes, hn0, Nat.add_sub_cancel]
      rw [if_pos ⟨Nat.succ_pos s.length, hidx⟩]
    have htake : ((s ++ [10]).take (s.length + 1) ++
        List.replicate (64 - (s.length + 1)) 0).take s.length = s := by
      rw [List.take_append_of_le_length (by
          simp only [List.length_take, List.length_append, List.length_cons,
            List.length_nil]
          omega),
        List.take_take, Nat.min_eq_left (Nat.le_succ _),
        List.take_append_of_le_length (Nat.le_refl _), List.take_length]
    simp only [readAttrAddr, hbytes]
    rw [if_neg (by omega), htake]
    simp [newAddress, Nat.not_lt.mpr hlen]
  · constructor
    · intro herr
      by_contra hcon
      rw [not_and_or] at hcon
      have hok : ¬((readAttrBytes u).2 > 63) := by
        rcases hcon with hshort | hnl
        · have hn0 : min u.length 64 = u.length := Nat.min_eq_left (by omega)
          simp only [readAttrBytes, hn0]
          split <;> omega
        · rw [not_not] at hnl
          have h64 : 64 ≤ u.length := by
            by_contra hlt
            have := List.getElem?_eq_none (l := u) (n := 63) (by omega)
            rw [this] at hnl
            exact Option.noConfusion hnl
          have hn0 : min u.length 64 = 64 := Nat.min_eq_right (by omega)
          simp only [readAttrBytes, hn0]
          rw [if_pos ⟨by omega, by simpa using hnl⟩]
          omega
      simp only [readAttrAddr] at herr
      rw [if_neg hok] at herr
      exact Except.noConfusion herr
    · rintro ⟨hlen, hnl⟩
      have hn0 : min u.length 64 = 64 := Nat.min_eq_right hlen
      have hcond : ¬(0 < (64 : ℕ) ∧ u[(64 : ℕ) - 1]? = some 10) := by
        rintro ⟨-, h10⟩
        exact hnl (by simpa using h10)
      simp only [readAttrAddr, readAttrBytes, hn0, if_neg hcond]
      rw [if_pos (by omega)]

/-- Witness for the amended C10 at concrete inputs: content "ab" and content
"ab\n" both read back as `newAddress "ab"`, and a 64-byte content whose last
visible byte is not a newline is rejected as too long. -/
theorem c10_readAttrAddr_amended_witness :
    readAttrAddr [97, 98] = newAddress [97, 98] ∧
    readAttrAddr ([97, 98] ++ [10]) = newAddress [97, 98] ∧
    readAttrAddr (List.replicate 64 97) = .error .tooLong :=
  ⟨(c10_readAttrAddr_amended [97, 98] []).1 (by decide) (by decide),
   (c10_readAttrAddr_amended [97, 98] []).2.1 (by decide),
   (c10_readAttrAddr_amended [] (List.replicate 64 97)).2.2.mpr
     ⟨by decide, by decide⟩⟩

/-- C10 fails as stated: for the 2-byte content "a\n" — a content string that
itself ends in a newline byte —
`readAttrAddr` strips the final byte, so the resulting address differs from
`newAddress` applied to the full content. -/
theorem c10_readAttrAddr_cex :
    readAttrAddr [97, 10] = .ok (1 :: (97 :: List.replicate 62 0)) ∧
    newAddress [97, 10] = .ok (2 :: (97 :: 10 :: List.replicate 61 0)) ∧
    (1 :: (97 :: List.replicate 62 0) : Address) ≠
      2 :: (97 :: 10 :: List.replicate 61 0) := by
  refine ⟨by decide, by decide, by decide⟩

/-- C1 fails as stated: with a directory entry "s-2" — `strconv.Atoi` accepts
the signed suffix, producing slot number -2 — the high-water-mark guard
`d.n >= 0 && dn.n <= d.n` never fires, so a second `resolve` for the same
address returns slot -2's path again after the first call already claimed
it (the directory entry still exists). -/
theorem c1_no_double_claim_cex :
    (findByAddress fsNeg (newDeviceDir dirD stemS) (mkAddr [65])).res
        = .found (pathJoin dirD [115, 45, 50]) ∧
    (findByAddress fsNeg
        (findByAddress fsNeg (newDeviceDir dirD stemS) (mkAddr [65])).dir
        (mkAddr [65])).res
      = .found (pathJoin dirD [115, 45, 50]) := by decide

/-- C2 fails as stated: in the same negative-slot scenario both calls read
slot -2's address attribute from disk (successfully), so a distinct slot
number is read twice across a sequence of resolve calls. -/
theorem c2_single_read_cex :
    (callsOut [(fsNeg, mkAddr [65]), (fsNeg, mkAddr [65])]
        (newDeviceDir dirD stemS)).2 = [(-2, true), (-2, true)] := by decide

/-- C4 fails as stated: slot 0 is scanned and skipped (address "X") while
resolving "B"; the device is then deleted and recreated at the same slot
with address "Z"; a subsequent `resolve` for the *stale* recorded address
"X" returns slot 0's path — so the slot is not permanently invisible. -/
theorem c4_masking_cex :
    (findByAddress fsX (newDeviceDir dirD stemS) (mkAddr [66])).res = .notFound ∧
    (findByAddress fsX (newDeviceDir dirD stemS) (mkAddr [66])).dir.skipped
        = [⟨0, mkAddr [88]⟩] ∧
    (findByAddress fsZ
        (findByAddress fsX (newDeviceDir dirD stemS) (mkAddr [66])).dir
        (mkAddr [88])).res
      = .found (pathJoin dirD [115, 48]) := by decide

/-- C5 fails as stated: "s-1" is not the stem followed by digits (its suffix
contains the non-digit byte `'-'`), yet `parseDeviceName` accepts it,
because `strconv.Atoi` accepts an optional sign. -/
theorem c5_listing_cex :
    parseDeviceName [115, 45, 49] [115] = ⟨[115, 45, 49], -1⟩ ∧
    ([45, 49].all isDigitByte) = false := by decide

/-- C7 fails as stated: when the very first attribute read of the call (slot
0) throws "address too long", the call returns an I/O error with the
high-water mark still at -1 — the mark is only advanced *after* a
successful read, so it does not advance for the slot whose read threw. -/
theorem c7_failure_state_cex :
    findByAddress fsBad (newDeviceDir dirD stemS) (mkAddr [66])
      = ⟨.ioError, newDeviceDir dirD stemS, [(0, false)]⟩ := by decide

/-- C8 fails as stated: scanning "s-2" (appended with the high-water mark at
-2) and then "s-3" in a later call appends a *smaller* slot number after a
larger one — the negative high-water mark disables the ascending-order
guard — leaving the skip memory unsorted. -/
theorem c8_sorted_cex :
    ((callsOut [(fsNeg, mkAddr [66]), (fsNeg3, mkAddr [66])]
        (newDeviceDir dirD stemS)).1.skipped.map (fun e => e.i) = [-2, -3]) ∧
    ¬ List.Pairwise (fun a b : SkipEntry => a.i < b.i)
        (callsOut [(fsNeg, mkAddr [66]), (fsNeg3, mkAddr [66])]
          (newDeviceDir dirD stemS)).1.skipped := by decide

theorem getElem?_mem_skip {sk : List SkipEntry} {j : Nat} {e : SkipEntry}
    (h : sk[j]? = some e) : e ∈ sk := by
  obtain ⟨hl, he⟩ := List.getElem?_eq_some.mp h
  exact he ▸ List.getElem_mem hl

/-- The erased skip memory (`append(d.skipped[:j], d.skipped[j+1:]...)`) is a
sublist of the original. -/
theorem takeDrop_sublist (l : List SkipEntry) (j : Nat) :
    List.Sublist (l.take j ++ l.drop (j + 1)) l := by
  conv_rhs => rw [← List.take_append_drop j l]
  refine List.Sublist.append (List.Sublist.refl _) ?_
  have h : l.drop (j + 1) = (l.drop j).drop 1 := by
    rw [List.drop_drop]
  rw [h]
  exact List.drop_sublist _ _

/-- In a strictly sorted skip memory, every entry surviving the erasure at
index `j` has a slot number different from the erased entry's. -/
theorem mem_takeDrop_ne {sk : List SkipEntry} {j : Nat} {e : SkipEntry}
    (hp : List.Pairwise skipLT sk) (hj : sk[j]? = some e) :
    ∀ x ∈ sk.take j ++ sk.drop (j + 1), x.i ≠ e.i := by
  obtain ⟨hjl, hje⟩ := List.getElem?_eq_some.mp hj
  intro x hx
  rcases List.mem_append.mp hx with hxt | hxd
  · obtain ⟨m, hm, hme⟩ := List.mem_iff_getElem.mp hxt
    have hmj : m < j := lt_of_lt_of_le hm (by simp [List.length_take])
    have hml : m < sk.length := by
      have := List.length_take_le j sk
      omega
    have hgt : (sk.take j)[m] = sk[m] := List.getElem_take sk
    have hlt := List.pairwise_iff_getElem.mp hp m j hml hjl hmj
    simp only [skipLT] at hlt
    rw [← hme, hgt, ← hje]
    omega
  · obtain ⟨m, hm, hme⟩ := List.mem_iff_getElem.mp hxd
    have hml : j + 1 + m < sk.length := by
      have := List.length_drop (j + 1) sk
      omega
    have hgt : (sk.drop (j + 1))[m] = sk[j + 1 + m] := List.getElem_drop sk
    have hlt := List.pairwise_iff_getElem.mp hp j (j + 1 + m) hjl hml (by omega)
    simp only [skipLT] at hlt
    rw [← hme, hgt, ← hje]
    omega

/-- In a strictly sorted skip memory, slot numbers identify entries. -/
theorem pairwise_lt_unique {sk : List SkipEntry} (hp : List.Pairwise skipLT sk)
    {x y : SkipEntry} (hx : x ∈ sk) (hy : y ∈ sk) (hxy : x.i = y.i) : x = y := by
  obtain ⟨m, hm, hme⟩ := List.mem_iff_getElem.mp hx
  obtain ⟨k, hk, hke⟩ := List.mem_iff_getElem.mp hy
  rcases Nat.lt_trichotomy m k with h | h | h
  · have hlt := List.pairwise_iff_getElem.mp hp m k hm hk h
    simp only [skipLT] at hlt
    rw [hme, hke] at hlt
    exact absurd hxy (by omega)
  · subst h
    rw [← hme, ← hke]
  · have hlt := List.pairwise_iff_getElem.mp hp k m hk hm h
    simp only [skipLT] at hlt
    rw [hme, hke] at hlt
    exact absurd hxy (by omega)

/-- A member different from the entry at index `j` survives the erasure at
index `j`. -/
theorem mem_takeDrop_of_ne {sk : List SkipEntry} {j : Nat} {e x : SkipEntry}
    (hj : sk[j]? = some e) (hx : x ∈ sk) (hne : x ≠ e) :
    x ∈ sk.take j ++ sk.drop (j + 1) := by
  obtain ⟨hjl, hje⟩ := List.getElem?_eq_some.mp hj
  obtain ⟨m, hm, hme⟩ := List.mem_iff_getElem.mp hx
  rcases Nat.lt_trichotomy m j with h | h | h
  · refine List.mem_append.mpr (.inl ?_)
    refine List.mem_iff_getElem.mpr ⟨m, ?_, ?_⟩
    · simp only [List.length_take]
      omega
    · rw [List.getElem_take sk]
      exact hme
  · exfalso
    apply hne
    subst h
    rw [← hme]
    exact hje
  · refine List.mem_append.mpr (.inr ?_)
    refine List.mem_iff_getElem.mpr ⟨m - (j + 1), ?_, ?_⟩
    · simp only [List.length_drop]
      omega
    · rw [List.getElem_drop sk]
      have : j + 1 + (m - (j + 1)) = m := by omega
      simp only [this]
      exact hme

/-- The cursor is stuck at or past the end of the skip memory. -/
theorem advanceSkip_none {sk : List SkipEntry} {i : Nat} (m : Int)
    (h : sk[i]? = none) : advanceSkip sk m i = i := by
  have hlen : sk.length ≤ i := by
    by_contra hlt
    rw [List.getElem?_eq_getElem (by omega)] at h
    exact Option.noConfusion h
  unfold advanceSkip
  rw [List.drop_eq_nil_of_le hlen]
  rfl

/-- One unfolding of the cursor advance at an in-bounds index. -/
theorem advanceSkip_some {sk : List SkipEntry} {i : Nat} {e : SkipEntry} (m : Int)
    (h : sk[i]? = some e) :
    advanceSkip sk m i = if e.i < m then advanceSkip sk m (i + 1) else i := by
  obtain ⟨hl, he⟩ := List.getElem?_eq_some.mp h
  unfold advanceSkip
  rw [List.drop_eq_getElem_cons hl, he]
  simp only [advanceSkipAux]

/-- The cursor never moves backwards, passes only entries whose slot is below
the target, and stops on the first entry at or above it. -/
theorem advanceSkip_spec (sk : List SkipEntry) (m : Int) (i : Nat) :
    i ≤ advanceSkip sk m i ∧
    (i ≤ sk.length → advanceSkip sk m i ≤ sk.length) ∧
    (∀ j, i ≤ j → j < advanceSkip sk m i → ∃ e, sk[j]? = some e ∧ e.i < m) ∧
    (∀ e, sk[advanceSkip sk m i]? = some e → ¬ e.i < m) := by
  have H : ∀ fuel i, sk.length ≤ i + fuel →
      i ≤ advanceSkip sk m i ∧
      (i ≤ sk.length → advanceSkip sk m i ≤ sk.length) ∧
      (∀ j, i ≤ j → j < advanceSkip sk m i → ∃ e, sk[j]? = some e ∧ e.i < m) ∧
      (∀ e, sk[advanceSkip sk m i]? = some e → ¬ e.i < m) := by
    intro fuel
    induction fuel with
    | zero =>
      intro i hle
      have hx : sk[i]? = none := List.getElem?_eq_none (by omega)
      rw [advanceSkip_none m hx]
      exact ⟨Nat.le_refl i, fun h => h, fun j h1 h2 => absurd h2 (by omega),
        fun e he => by rw [hx] at he; exact Option.noConfusion he⟩
    | succ fuel ih =>
      intro i hle
      cases hx : sk[i]? with
      | none =>
        rw [advanceSkip_none m hx]
        exact ⟨Nat.le_refl i, fun h => h, fun j h1 h2 => absurd h2 (by omega),
          fun e he => by rw [hx] at he; exact Option.noConfusion he⟩
      | some e =>
        rw [advanceSkip_some m hx]
        by_cases hlt : e.i < m
        · rw [if_pos hlt]
          obtain ⟨hge, hlen, hpass, hstop⟩ := ih (i + 1) (by omega)
          refine ⟨by omega, ?_, ?_, hstop⟩
          · intro _
            obtain ⟨hl, -⟩ := List.getElem?_eq_some.mp hx
            exact hlen (by omega)
          · intro j h1 h2
            rcases Nat.eq_or_lt_of_le h1 with h | h
            · exact ⟨e, h ▸ hx, hlt⟩
            · exact hpass j (by omega) h2
        · rw [if_neg hlt]
          exact ⟨Nat.le_refl i, fun h => h, fun j h1 h2 => absurd h2 (by omega),
            fun e' he' => by rw [hx] at he'; cases he'; exact hlt⟩
  exact H sk.length i (by omega)

/-- If every entry from the start of the cursor up to index `k` is below the
target and the entry at `k` is not, the cursor stops exactly at `k`. -/
theorem advanceSkip_eq (sk : List SkipEntry) (m : Int) {i k : Nat} (hik : i ≤ k)
    (hpass : ∀ j, i ≤ j → j < k → ∀ e, sk[j]? = some e → e.i < m)
    (e : SkipEntry) (hk : sk[k]? = some e) (hstop : ¬ e.i < m) :
    advanceSkip sk m i = k := by
  have H : ∀ fuel i, i ≤ k → k ≤ i + fuel →
      (∀ j, i ≤ j → j < k → ∀ e, sk[j]? = some e → e.i < m) →
      advanceSkip sk m i = k := by
    intro fuel
    induction fuel with
    | zero =>
      intro i h1 h2 _
      have : i = k := by omega
      subst this
      rw [advanceSkip_some m hk, if_neg hstop]
    | succ fuel ih =>
      intro i h1 h2 hpass
      rcases Nat.eq_or_lt_of_le h1 with h | h
      · subst h
        rw [advanceSkip_some m hk, if_neg hstop]
      · obtain ⟨hkl, -⟩ := List.getElem?_eq_some.mp hk
        have hi : i < sk.length := by omega
        rw [advanceSkip_some m (List.getElem?_eq_getElem hi)]
        rw [if_pos (hpass i (Nat.le_refl i) h _ (List.getElem?_eq_getElem hi))]
        exact ih (i + 1) (by omega) (by omega) (fun j hj1 hj2 => hpass j (by omega) hj2)
  exact H k i hik (by omega) hpass

/-- A successfully parsed device name is a fixed point: the stored name
re-parses to the same value. -/
theorem parseDeviceName_fix {nm stem : GoString} {dn : DeviceName}
    (h : parseDeviceName nm stem = dn) (hne : dn ≠ ⟨[], 0⟩) :
    dn.name = nm ∧ parseDeviceName dn.name stem = dn := by
  unfold parseDeviceName at h
  split at h
  · cases hat : goAtoi (nm.drop stem.length) with
    | none =>
      simp only [hat] at h
      exact absurd h.symm hne
    | some k =>
      simp only [hat] at h
      cases h
      refine ⟨rfl, ?_⟩
      unfold parseDeviceName
      rw [if_pos (by assumption), hat]
  · exact absurd h.symm hne

/-- Every entry of a successful listing comes from parsing some directory
name, and is not the zero value. -/
theorem fsList_mem {fs : Fs} {stem : GoString} {dns : List DeviceName}
    (h : fsList fs stem = some dns) {dn : DeviceName} (hdn : dn ∈ dns) :
    dn ≠ ⟨[], 0⟩ ∧
    ∃ names nm, fs.dirNames = some names ∧ nm ∈ names ∧
      parseDeviceName nm stem = dn := by
  unfold fsList at h
  cases hnames : fs.dirNames with
  | none => rw [hnames] at h; exact Option.noConfusion h
  | some names =>
    rw [hnames] at h
    have hdns : dns = List.insertionSort dnLE
        ((names.map (fun nm => parseDeviceName nm stem)).filter
          (fun dn => decide (dn ≠ (⟨[], 0⟩ : DeviceName)))) := by
      cases h
      rfl
    rw [hdns] at hdn
    rw [List.mem_insertionSort] at hdn
    obtain ⟨hmem, hdec⟩ := List.mem_filter.mp hdn
    obtain ⟨nm, hnm, hp⟩ := List.mem_map.mp hmem
    exact ⟨of_decide_eq_true hdec, names, nm, rfl, hnm, hp⟩

/-- Every entry of a successful listing re-parses to itself. -/
theorem fsList_parse_fix {fs : Fs} {stem : GoString} {dns : List DeviceName}
    (h : fsList fs stem = some dns) {dn : DeviceName} (hdn : dn ∈ dns) :
    parseDeviceName dn.name stem = dn := by
  obtain ⟨hne, _, nm, -, -, hp⟩ := fsList_mem h hdn
  exact (parseDeviceName_fix hp hne).2

/-- A successful listing is sorted ascending by slot number. -/
theorem fsList_sorted {fs : Fs} {stem : GoString} {dns : List DeviceName}
    (h : fsList fs stem = some dns) : List.Pairwise dnLE dns := by
  unfold fsList at h
  cases hnames : fs.dirNames with
  | none => rw [hnames] at h; exact Option.noConfusion h
  | some names =>
    rw [hnames] at h
    cases h
    exact List.sorted_insertionSort dnLE _

/-- Under `NonnegFs`, every listed slot number is nonnegative. -/
theorem fsList_nonneg {fs : Fs} {stem : GoString} {dns : List DeviceName}
    (hnn : NonnegFs fs stem = true) (h : fsList fs stem = some dns)
    {dn : DeviceName} (hdn : dn ∈ dns) : 0 ≤ dn.n := by
  obtain ⟨-, names, nm, hnames, hmem, hp⟩ := fsList_mem h hdn
  unfold NonnegFs at hnn
  rw [hnames] at hnn
  have := List.all_eq_true.mp hnn nm hmem
  rw [hp] at this
  exact of_decide_eq_true this

/-- A failed listing comes exactly from a failed `Readdirnames`. -/
theorem fsList_none {fs : Fs} {stem : GoString} (h : fs.dirNames = none) :
    fsList fs stem = none := by
  unfold fsList
  rw [h]

/-- Exhaustive case analysis of one loop iteration.  With `j` the advanced
cursor, exactly one of the seven source branches applies: skip-memory
replay without a match, skip-memory claim, high-water-mark skip, failed
attribute open, failed attribute read, read-and-claim, or
read-and-remember. -/
theorem findStep_cases (fs : Fs) (addr : Address) (d : DeviceDir) (si : Nat)
    (dn : DeviceName) {j : Nat} (hj : advanceSkip d.skipped dn.n si = j) :
    (∃ e, d.skipped[j]? = some e ∧ e.i = dn.n ∧ e.addr ≠ addr ∧
      findStep fs addr d si dn = .next d j []) ∨
    (∃ e, d.skipped[j]? = some e ∧ e.i = dn.n ∧ e.addr = addr ∧
      findStep fs addr d si dn = .done ⟨.found (pathJoin d.path dn.name),
        { d with skipped := d.skipped.take j ++ d.skipped.drop (j + 1) }, []⟩) ∨
    ((∀ e, d.skipped[j]? = some e → e.i ≠ dn.n) ∧ (0 ≤ d.n ∧ dn.n ≤ d.n) ∧
      findStep fs addr d si dn = .next d j []) ∨
    ((∀ e, d.skipped[j]? = some e → e.i ≠ dn.n) ∧ ¬(0 ≤ d.n ∧ dn.n ≤ d.n) ∧
      fs.addrFile dn.name = none ∧
      findStep fs addr d si dn = .done ⟨.ioError, d, []⟩) ∨
    ((∀ e, d.skipped[j]? = some e → e.i ≠ dn.n) ∧ ¬(0 ≤ d.n ∧ dn.n ≤ d.n) ∧
      (∃ content, fs.addrFile dn.name = some content ∧
        readAttrAddr content = .error .tooLong) ∧
      findStep fs addr d si dn = .done ⟨.ioError, d, [(dn.n, false)]⟩) ∨
    ((∀ e, d.skipped[j]? = some e → e.i ≠ dn.n) ∧ ¬(0 ≤ d.n ∧ dn.n ≤ d.n) ∧
      (∃ content, fs.addrFile dn.name = some content ∧
        readAttrAddr content = .ok addr) ∧
      findStep fs addr d si dn = .done ⟨.found (pathJoin d.path dn.name),
        { d with n := dn.n }, [(dn.n, true)]⟩) ∨
    ((∀ e, d.skipped[j]? = some e → e.i ≠ dn.n) ∧ ¬(0 ≤ d.n ∧ dn.n ≤ d.n) ∧
      ∃ content devAddr, fs.addrFile dn.name = some content ∧
        readAttrAddr content = .ok devAddr ∧ devAddr ≠ addr ∧
        findStep fs addr d si dn =
          .next { d with n := dn.n, skipped := d.skipped ++ [⟨dn.n, devAddr⟩] } j
            [(dn.n, true)]) := by
  cases hx : d.skipped[j]? with
  | some e =>
    by_cases hei : e.i = dn.n
    · by_cases haddr : e.addr = addr
      · refine .inr (.inl ⟨e, rfl, hei, haddr, ?_⟩)
        simp only [findStep, hj, hx]
        rw [if_pos hei, if_neg (by simp [haddr])]
      · refine .inl ⟨e, rfl, hei, haddr, ?_⟩
        simp only [findStep, hj, hx]
        rw [if_pos hei, if_pos haddr]
    · have hnohit : ∀ e', some e = some e' → e'.i ≠ dn.n := by
        intro e' he'
        cases Option.some.inj he'
        exact hei
      by_cases hguard : 0 ≤ d.n ∧ dn.n ≤ d.n
      · refine .inr (.inr (.inl ⟨hnohit, hguard, ?_⟩))
        simp only [findStep, hj, hx]
        rw [if_neg hei, if_pos hguard]
      · cases hf : fs.addrFile dn.name with
        | none =>
          refine .inr (.inr (.inr (.inl ⟨hnohit, hguard, rfl, ?_⟩)))
          simp only [findStep, hj, hx, hf]
          rw [if_neg hei, if_neg hguard]
        | some content =>
          cases hr : readAttrAddr content with
          | error err =>
            cases err
            refine .inr (.inr (.inr (.inr (.inl ⟨hnohit, hguard, ⟨content, rfl, hr⟩, ?_⟩))))
            simp only [findStep, hj, hx, hf, hr]
            rw [if_neg hei, if_neg hguard]
          | ok devAddr =>
            by_cases hda : devAddr = addr
            · subst hda
              refine .inr (.inr (.inr (.inr (.inr (.inl ⟨hnohit, hguard, ⟨content, rfl, hr⟩, ?_⟩)))))
              simp only [findStep, hj, hx, hf, hr]
              rw [if_neg hei, if_neg hguard]
              simp
            · refine .inr (.inr (.inr (.inr (.inr (.inr ⟨hnohit, hguard, content, devAddr, rfl, hr, hda, ?_⟩)))))
              simp only [findStep, hj, hx, hf, hr]
              rw [if_neg hei, if_neg hguard, if_neg hda]
  | none =>
    have hnohit : ∀ e', (none : Option SkipEntry) = some e' → e'.i ≠ dn.n := by
      intro e' he'
      exact Option.noConfusion he'
    by_cases hguard : 0 ≤ d.n ∧ dn.n ≤ d.n
    · refine .inr (.inr (.inl ⟨hnohit, hguard, ?_⟩))
      simp only [findStep, hj, hx]
      rw [if_pos hguard]
    · cases hf : fs.addrFile dn.name with
      | none =>
        refine .inr (.inr (.inr (.inl ⟨hnohit, hguard, rfl, ?_⟩)))
        simp only [findStep, hj, hx, hf]
        rw [if_neg hguard]
      | some content =>
        cases hr : readAttrAddr content with
        | error err =>
          cases err
          refine .inr (.inr (.inr (.inr (.inl ⟨hnohit, hguard, ⟨content, rfl, hr⟩, ?_⟩))))
          simp only [findStep, hj, hx, hf, hr]
          rw [if_neg hguard]
        | ok devAddr =>
          by_cases hda : devAddr = addr
          · subst hda
            refine .inr (.inr (.inr (.inr (.inr (.inl ⟨hnohit, hguard, ⟨content, rfl, hr⟩, ?_⟩)))))
            simp only [findStep, hj, hx, hf, hr]
            rw [if_neg hguard]
            simp
          · refine .inr (.inr (.inr (.inr (.inr (.inr ⟨hnohit, hguard, content, devAddr, rfl, hr, hda, ?_⟩)))))
            simp only [findStep, hj, hx, hf, hr]
            rw [if_neg hguard, if_neg hda]

/-- `findLoop` on the empty listing. -/
theorem findLoop_nil (fs : Fs) (addr : Address) (d : DeviceDir) (si : Nat) :
    findLoop fs addr d si [] = ⟨.notFound, d, []⟩ := rfl

/-- `findLoop` after a `done` step. -/
theorem findLoop_cons_done {fs : Fs} {addr : Address} {d : DeviceDir} {si : Nat}
    {dn : DeviceName} {rest : List DeviceName} {out : LoopOut}
    (h : findStep fs addr d si dn = .done out) :
    findLoop fs addr d si (dn :: rest) = out := by
  simp only [findLoop, h]

/-- `findLoop` after a `next` step. -/
theorem findLoop_cons_next {fs : Fs} {addr : Address} {d : DeviceDir} {si : Nat}
    {dn : DeviceName} {rest : List DeviceName} {d2 : DeviceDir} {j : Nat}
    {rs : List (Int × Bool)}
    (h : findStep fs addr d si dn = .next d2 j rs) :
    findLoop fs addr d si (dn :: rest) =
      ⟨(findLoop fs addr d2 j rest).res, (findLoop fs addr d2 j rest).dir,
        rs ++ (findLoop fs addr d2 j rest).reads⟩ := by
  simp only [findLoop, h]

/-- When the high-water-mark guard fails for a nonnegative slot, the slot is
strictly above the mark and above every recorded slot. -/
theorem skipOk_read_facts {d : DeviceDir} (hok : SkipOk d) {k : Int}
    (hguard : ¬(0 ≤ d.n ∧ k ≤ d.n)) (hk : 0 ≤ k) :
    d.n < k ∧ ∀ e ∈ d.skipped, e.i < k := by
  have hdn : d.n < k := by omega
  exact ⟨hdn, fun e he => by have := hok.2 e he; omega⟩

/-- Appending the freshly read slot keeps the skip memory well formed. -/
theorem skipOk_append {d : DeviceDir} (hok : SkipOk d) {k : Int} {a : Address}
    (hguard : ¬(0 ≤ d.n ∧ k ≤ d.n)) (hk : 0 ≤ k) :
    SkipOk { d with n := k, skipped := d.skipped ++ [⟨k, a⟩] } := by
  obtain ⟨hdn, hall⟩ := skipOk_read_facts hok hguard hk
  constructor
  · rw [List.pairwise_append]
    refine ⟨hok.1, List.pairwise_singleton _ _, ?_⟩
    intro x hx y hy
    rw [List.mem_singleton] at hy
    subst hy
    exact hall x hx
  · intro e he
    rcases List.mem_append.mp he with h | h
    · have h1 := hok.2 e h
      have h2 := hall e h
      refine ⟨h1.1, ?_⟩
      show e.i ≤ k
      omega
    · rw [List.mem_singleton] at h
      subst h
      exact ⟨hk, le_refl k⟩

/-- Erasing the matched entry keeps the skip memory well formed. -/
theorem skipOk_erase {d : DeviceDir} (hok : SkipOk d) (j : Nat) :
    SkipOk { d with skipped := d.skipped.take j ++ d.skipped.drop (j + 1) } := by
  have hsub := takeDrop_sublist d.skipped j
  exact ⟨hok.1.sublist hsub, fun e he => hok.2 e (hsub.mem he)⟩

/-- The walk never changes the configured directory path or name stem. -/
theorem findLoop_const (fs : Fs) (addr : Address) :
    ∀ (dns : List DeviceName) (d : DeviceDir) (si : Nat),
      (findLoop fs addr d si dns).dir.path = d.path ∧
      (findLoop fs addr d si dns).dir.stem = d.stem := by
  intro dns
  induction dns with
  | nil => intro d si; exact ⟨rfl, rfl⟩
  | cons dn rest ih =>
    intro d si
    rcases findStep_cases fs addr d si dn rfl with
      ⟨e, hx, hei, hne, hstep⟩ | ⟨e, hx, hei, heq, hstep⟩ | ⟨hnh, hg, hstep⟩
      | ⟨hnh, hg, hf, hstep⟩ | ⟨hnh, hg, hrf, hstep⟩ | ⟨hnh, hg, hrf, hstep⟩
      | ⟨hnh, hg, content, devAddr, hf, hr, hda, hstep⟩
    · rw [findLoop_cons_next hstep]; exact ih d _
    · rw [findLoop_cons_done hstep]; exact ⟨rfl, rfl⟩
    · rw [findLoop_cons_next hstep]; exact ih d _
    · rw [findLoop_cons_done hstep]; exact ⟨rfl, rfl⟩
    · rw [findLoop_cons_done hstep]; exact ⟨rfl, rfl⟩
    · rw [findLoop_cons_done hstep]; exact ⟨rfl, rfl⟩
    · rw [findLoop_cons_next hstep]; exact ih _ _

/-- The walk preserves well-formedness of the skip memory and never lowers
the high-water mark (all slots nonnegative). -/
theorem findLoop_skipOk (fs : Fs) (addr : Address) :
    ∀ (dns : List DeviceName) (d : DeviceDir) (si : Nat), SkipOk d →
      (∀ dn ∈ dns, 0 ≤ dn.n) →
      SkipOk (findLoop fs addr d si dns).dir ∧
      d.n ≤ (findLoop fs addr d si dns).dir.n := by
  intro dns
  induction dns with
  | nil => intro d si hok _; exact ⟨hok, le_refl _⟩
  | cons dn rest ih =>
    intro d si hok hnn
    have hdn0 : 0 ≤ dn.n := hnn dn (List.mem_cons_self dn rest)
    have hnnrest : ∀ x ∈ rest, 0 ≤ x.n := fun x hx => hnn x (List.mem_cons_of_mem dn hx)
    rcases findStep_cases fs addr d si dn rfl with
      ⟨e, hx, hei, hne, hstep⟩ | ⟨e, hx, hei, heq, hstep⟩ | ⟨hnh, hg, hstep⟩
      | ⟨hnh, hg, hf, hstep⟩ | ⟨hnh, hg, hrf, hstep⟩ | ⟨hnh, hg, hrf, hstep⟩
      | ⟨hnh, hg, content, devAddr, hf, hr, hda, hstep⟩
    · rw [findLoop_cons_next hstep]; exact ih d _ hok hnnrest
    · rw [findLoop_cons_done hstep]; exact ⟨skipOk_erase hok _, le_refl _⟩
    · rw [findLoop_cons_next hstep]; exact ih d _ hok hnnrest
    · rw [findLoop_cons_done hstep]; exact ⟨hok, le_refl _⟩
    · rw [findLoop_cons_done hstep]; exact ⟨hok, le_refl _⟩
    · rw [findLoop_cons_done hstep]
      obtain ⟨hdn, hall⟩ := skipOk_read_facts hok hg hdn0
      refine ⟨⟨hok.1, fun e he => ?_⟩, ?_⟩
      · have h1 := hok.2 e he
        have h2 := hall e he
        refine ⟨h1.1, ?_⟩
        show e.i ≤ dn.n
        omega
      · show d.n ≤ dn.n
        omega
    · rw [findLoop_cons_next hstep]
      dsimp only
      have hok2 := skipOk_append hok hg hdn0 (a := devAddr)
      obtain ⟨hrec1, hrec2⟩ := ih _ _ hok2 hnnrest
      refine ⟨hrec1, ?_⟩
      have hdnlt : d.n < dn.n := by omega
      have hrec2' : dn.n ≤ _ := hrec2
      omega

/-- `filepath.Join` with a fixed base is injective in the entry name. -/
theorem pathJoin_inj {dir a b : GoString} (h : pathJoin dir a = pathJoin dir b) :
    a = b := by
  unfold pathJoin at h
  exact List.append_cancel_left h

/-- Any successful result names a currently listed directory entry. -/
theorem findLoop_found (fs : Fs) (addr : Address) :
    ∀ (dns : List DeviceName) (d : DeviceDir) (si : Nat) (q : GoString),
      (findLoop fs addr d si dns).res = .found q →
      ∃ dn ∈ dns, q = pathJoin d.path dn.name := by
  intro dns
  induction dns with
  | nil =>
    intro d si q h
    exact absurd h (by simp [findLoop_nil])
  | cons dn rest ih =>
    intro d si q h
    rcases findStep_cases fs addr d si dn rfl with
      ⟨e, hx, hei, hne, hstep⟩ | ⟨e, hx, hei, heq, hstep⟩ | ⟨hnh, hg, hstep⟩
      | ⟨hnh, hg, hf, hstep⟩ | ⟨hnh, hg, hrf, hstep⟩ | ⟨hnh, hg, hrf, hstep⟩
      | ⟨hnh, hg, content, devAddr, hf, hr, hda, hstep⟩
    · rw [findLoop_cons_next hstep] at h
      obtain ⟨dn', hmem, hq⟩ := ih d _ q h
      exact ⟨dn', List.mem_cons_of_mem dn hmem, hq⟩
    · rw [findLoop_cons_done hstep] at h
      cases h
      exact ⟨dn, List.mem_cons_self dn rest, rfl⟩
    · rw [findLoop_cons_next hstep] at h
      obtain ⟨dn', hmem, hq⟩ := ih d _ q h
      exact ⟨dn', List.mem_cons_of_mem dn hmem, hq⟩
    · rw [findLoop_cons_done hstep] at h
      exact absurd h (by simp)
    · rw [findLoop_cons_done hstep] at h
      exact absurd h (by simp)
    · rw [findLoop_cons_done hstep] at h
      cases h
      exact ⟨dn, List.mem_cons_self dn rest, rfl⟩
    · rw [findLoop_cons_next hstep] at h
      dsimp only at h
      obtain ⟨dn', hmem, hq⟩ := ih _ _ q h
      exact ⟨dn', List.mem_cons_of_mem dn hmem, hq⟩

/-- A successful result claims a listed slot: afterwards that slot number is
at or below the high-water mark and absent from the skip memory. -/
theorem findLoop_claim (fs : Fs) (addr : Address) :
    ∀ (dns : List DeviceName) (d : DeviceDir) (si : Nat) (q : GoString),
      SkipOk d → (∀ dn ∈ dns, 0 ≤ dn.n) →
      (findLoop fs addr d si dns).res = .found q →
      ∃ dn ∈ dns, q = pathJoin d.path dn.name ∧ 0 ≤ dn.n ∧
        dn.n ≤ (findLoop fs addr d si dns).dir.n ∧
        ∀ e ∈ (findLoop fs addr d si dns).dir.skipped, e.i ≠ dn.n := by
  intro dns
  induction dns with
  | nil =>
    intro d si q _ _ h
    exact absurd h (by simp [findLoop_nil])
  | cons dn rest ih =>
    intro d si q hok hnn h
    have hdn0 : 0 ≤ dn.n := hnn dn (List.mem_cons_self dn rest)
    have hnnrest : ∀ x ∈ rest, 0 ≤ x.n := fun x hx => hnn x (List.mem_cons_of_mem dn hx)
    rcases findStep_cases fs addr d si dn rfl with
      ⟨e, hx, hei, hne, hstep⟩ | ⟨e, hx, hei, heq, hstep⟩ | ⟨hnh, hg, hstep⟩
      | ⟨hnh, hg, hf, hstep⟩ | ⟨hnh, hg, hrf, hstep⟩ | ⟨hnh, hg, hrf, hstep⟩
      | ⟨hnh, hg, content, devAddr, hf, hr, hda, hstep⟩
    · rw [findLoop_cons_next hstep] at h ⊢
      obtain ⟨dn', hmem, hq, h0, hle, hsk⟩ := ih d _ q hok hnnrest h
      exact ⟨dn', List.mem_cons_of_mem dn hmem, hq, h0, hle, hsk⟩
    · rw [findLoop_cons_done hstep] at h ⊢
      cases h
      have hmem := getElem?_mem_skip hx
      have hbound := hok.2 e hmem
      refine ⟨dn, List.mem_cons_self dn rest, rfl, by omega, by dsimp only; omega, ?_⟩
      intro x hxm
      dsimp only at hxm
      have := mem_takeDrop_ne hok.1 hx x hxm
      omega
    · rw [findLoop_cons_next hstep] at h ⊢
      obtain ⟨dn', hmem, hq, h0, hle, hsk⟩ := ih d _ q hok hnnrest h
      exact ⟨dn', List.mem_cons_of_mem dn hmem, hq, h0, hle, hsk⟩
    · rw [findLoop_cons_done hstep] at h
      exact absurd h (by simp)
    · rw [findLoop_cons_done hstep] at h
      exact absurd h (by simp)
    · rw [findLoop_cons_done hstep] at h ⊢
      cases h
      obtain ⟨hdnlt, hall⟩ := skipOk_read_facts hok hg hdn0
      refine ⟨dn, List.mem_cons_self dn rest, rfl, hdn0, by dsimp only; omega, ?_⟩
      intro x hxm
      dsimp only at hxm
      have := hall x hxm
      omega
    · rw [findLoop_cons_next hstep] at h ⊢
      dsimp only at h ⊢
      have hok2 := skipOk_append hok hg hdn0 (a := devAddr)
      obtain ⟨dn', hmem, hq, h0, hle, hsk⟩ := ih _ _ q hok2 hnnrest h
      exact ⟨dn', List.mem_cons_of_mem dn hmem, hq, h0, hle, hsk⟩

/-- Once slot `N` is claimed (at or below the mark, not in skip memory), the
walk never returns a path for slot `N` and preserves that configuration. -/
theorem findLoop_avoid (fs : Fs) (addr : Address) (N : Int) :
    ∀ (dns : List DeviceName) (d : DeviceDir) (si : Nat),
      0 ≤ N → N ≤ d.n → (∀ e ∈ d.skipped, e.i ≠ N) →
      (∀ dn ∈ dns, 0 ≤ dn.n) →
      (∀ dn ∈ dns, parseDeviceName dn.name d.stem = dn) →
      (∀ nm, parseDeviceName nm d.stem = ⟨nm, N⟩ →
        (findLoop fs addr d si dns).res ≠ .found (pathJoin d.path nm)) ∧
      N ≤ (findLoop fs addr d si dns).dir.n ∧
      (∀ e ∈ (findLoop fs addr d si dns).dir.skipped, e.i ≠ N) := by
  intro dns
  induction dns with
  | nil =>
    intro d si h0 hn hsk _ _
    exact ⟨fun nm _ h => by simp [findLoop_nil] at h, hn, hsk⟩
  | cons dn rest ih =>
    intro d si h0 hn hsk hnn hfix
    have hdn0 : 0 ≤ dn.n := hnn dn (List.mem_cons_self dn rest)
    have hdnfix := hfix dn (List.mem_cons_self dn rest)
    have hnnrest : ∀ x ∈ rest, 0 ≤ x.n := fun x hx => hnn x (List.mem_cons_of_mem dn hx)
    have hfixrest : ∀ x ∈ rest, parseDeviceName x.name d.stem = x :=
      fun x hx => hfix x (List.mem_cons_of_mem dn hx)
    rcases findStep_cases fs addr d si dn rfl with
      ⟨e, hx, hei, hne, hstep⟩ | ⟨e, hx, hei, heq, hstep⟩ | ⟨hnh, hg, hstep⟩
      | ⟨hnh, hg, hf, hstep⟩ | ⟨hnh, hg, hrf, hstep⟩ | ⟨hnh, hg, hrf, hstep⟩
      | ⟨hnh, hg, content, devAddr, hf, hr, hda, hstep⟩
    · rw [findLoop_cons_next hstep]
      exact ih d _ h0 hn hsk hnnrest hfixrest
    · rw [findLoop_cons_done hstep]
      have hmem := getElem?_mem_skip hx
      have heiN : e.i ≠ N := hsk e hmem
      refine ⟨?_, hn, ?_⟩
      · intro nm hp hfound
        dsimp only at hfound
        have hname := pathJoin_inj (FindResult.found.inj hfound)
        rw [← hname] at hp
        rw [hdnfix] at hp
        have : dn.n = N := by
          have := congrArg DeviceName.n hp
          simpa using this
        omega
      · intro x hxm
        dsimp only at hxm
        have hxmem : x ∈ d.skipped := (takeDrop_sublist d.skipped _).mem hxm
        exact hsk x hxmem
    · rw [findLoop_cons_next hstep]
      exact ih d _ h0 hn hsk hnnrest hfixrest
    · rw [findLoop_cons_done hstep]
      exact ⟨fun nm _ h => by simp at h, hn, hsk⟩
    · rw [findLoop_cons_done hstep]
      exact ⟨fun nm _ h => by simp at h, hn, hsk⟩
    · rw [findLoop_cons_done hstep]
      have hdnlt : d.n < dn.n := by omega
      refine ⟨?_, by dsimp only; omega, fun x hxm => hsk x hxm⟩
      intro nm hp hfound
      dsimp only at hfound
      have hname := pathJoin_inj (FindResult.found.inj hfound)
      rw [← hname] at hp
      rw [hdnfix] at hp
      have : dn.n = N := by
        have := congrArg DeviceName.n hp
        simpa using this
      omega
    · rw [findLoop_cons_next hstep]
      dsimp only
      have hdnlt : d.n < dn.n := by omega
      have hsk2 : ∀ e ∈ d.skipped ++ [(⟨dn.n, devAddr⟩ : SkipEntry)], e.i ≠ N := by
        intro e he
        rcases List.mem_append.mp he with h | h
        · exact hsk e h
        · rw [List.mem_singleton] at h
          subst h
          dsimp only
          omega
      have := ih { d with n := dn.n, skipped := d.skipped ++ [⟨dn.n, devAddr⟩] }
        (advanceSkip d.skipped dn.n si) h0 (by dsimp only; omega) hsk2 hnnrest hfixrest
      exact this

/-- A successful read contributes its slot to the success log. -/
theorem succSlots_cons_true (k : Int) (rs : List (Int × Bool)) :
    succSlots ((k, true) :: rs) = k :: succSlots rs := by
  simp [succSlots]

/-- A failed read contributes nothing to the success log. -/
theorem succSlots_cons_false (k : Int) (rs : List (Int × Bool)) :
    succSlots ((k, false) :: rs) = succSlots rs := by
  simp [succSlots]

/-- The read log of one walk: successful reads are strictly increasing,
strictly above the starting high-water mark and at most the final one;
a failed read lies strictly above the final high-water mark (the mark is
not advanced for the slot whose read failed). -/
theorem findLoop_reads (fs : Fs) (addr : Address) :
    ∀ (dns : List DeviceName) (d : DeviceDir) (si : Nat),
      (∀ dn ∈ dns, 0 ≤ dn.n) →
      d.n ≤ (findLoop fs addr d si dns).dir.n ∧
      List.Pairwise (· < ·) (succSlots (findLoop fs addr d si dns).reads) ∧
      (∀ k ∈ succSlots (findLoop fs addr d si dns).reads,
        d.n < k ∧ k ≤ (findLoop fs addr d si dns).dir.n) ∧
      (∀ kb ∈ (findLoop fs addr d si dns).reads, kb.2 = false →
        (findLoop fs addr d si dns).dir.n < kb.1) := by
  intro dns
  induction dns with
  | nil =>
    intro d si _
    refine ⟨le_refl _, ?_, ?_, ?_⟩ <;> simp [findLoop_nil, succSlots]
  | cons dn rest ih =>
    intro d si hnn
    have hdn0 : 0 ≤ dn.n := hnn dn (List.mem_cons_self dn rest)
    have hnnrest : ∀ x ∈ rest, 0 ≤ x.n := fun x hx => hnn x (List.mem_cons_of_mem dn hx)
    rcases findStep_cases fs addr d si dn rfl with
      ⟨e, hx, hei, hne, hstep⟩ | ⟨e, hx, hei, heq, hstep⟩ | ⟨hnh, hg, hstep⟩
      | ⟨hnh, hg, hf, hstep⟩ | ⟨hnh, hg, hrf, hstep⟩ | ⟨hnh, hg, hrf, hstep⟩
      | ⟨hnh, hg, content, devAddr, hf, hr, hda, hstep⟩
    · rw [findLoop_cons_next hstep]
      dsimp only
      obtain ⟨h1, h2, h3, h4⟩ := ih d _ hnnrest
      exact ⟨h1, by simpa [succSlots] using h2, by simpa [succSlots] using h3,
        by simpa using h4⟩
    · rw [findLoop_cons_done hstep]
      refine ⟨le_refl _, ?_, ?_, ?_⟩ <;> simp [succSlots]
    · rw [findLoop_cons_next hstep]
      dsimp only
      obtain ⟨h1, h2, h3, h4⟩ := ih d _ hnnrest
      exact ⟨h1, by simpa [succSlots] using h2, by simpa [succSlots] using h3,
        by simpa using h4⟩
    · rw [findLoop_cons_done hstep]
      refine ⟨le_refl _, ?_, ?_, ?_⟩ <;> simp [succSlots]
    · rw [findLoop_cons_done hstep]
      have hdnlt : d.n < dn.n := by omega
      refine ⟨le_refl _, by simp [succSlots], by simp [succSlots], ?_⟩
      intro kb hkb _
      dsimp only at hkb ⊢
      rw [List.mem_singleton] at hkb
      subst hkb
      exact hdnlt
    · rw [findLoop_cons_done hstep]
      have hdnlt : d.n < dn.n := by omega
      refine ⟨by dsimp only; omega, by simp [succSlots], ?_, ?_⟩
      · intro k hk
        dsimp only at hk ⊢
        simp [succSlots] at hk
        subst hk
        exact ⟨hdnlt, le_refl _⟩
      · intro kb hkb hfalse
        dsimp only at hkb
        rw [List.mem_singleton] at hkb
        subst hkb
        simp at hfalse
    · rw [findLoop_cons_next hstep]
      dsimp only
      have hdnlt : d.n < dn.n := by omega
      obtain ⟨h1, h2, h3, h4⟩ := ih { d with n := dn.n, skipped := d.skipped ++ [⟨dn.n, devAddr⟩] } (advanceSkip d.skipped dn.n si) hnnrest
      have h1' : dn.n ≤ _ := h1
      rw [List.singleton_append, succSlots_cons_true]
      refine ⟨by omega, ?_, ?_, ?_⟩
      · rw [List.pairwise_cons]
        exact ⟨fun k hk => (h3 k hk).1, h2⟩
      · intro k hk
        rcases List.mem_cons.mp hk with h | h
        · subst h
          exact ⟨hdnlt, h1'⟩
        · obtain ⟨ha, hb⟩ := h3 k h
          have ha' : dn.n < k := ha
          exact ⟨by omega, hb⟩
      · intro kb hkb hfalse
        rcases List.mem_cons.mp hkb with h | h
        · subst h
          simp at hfalse
        · exact h4 kb h hfalse

/-- While a stale skip-memory entry for slot `N` persists and no request uses
its recorded address, the walk never returns slot `N`'s path and the entry
persists. -/
theorem findLoop_stale (fs : Fs) (addr : Address) (N : Int) (addrOld : Address) :
    ∀ (dns : List DeviceName) (d : DeviceDir) (si : Nat),
      SkipOk d → (⟨N, addrOld⟩ : SkipEntry) ∈ d.skipped → addr ≠ addrOld →
      (∀ dn ∈ dns, 0 ≤ dn.n) →
      (∀ dn ∈ dns, parseDeviceName dn.name d.stem = dn) →
      (∀ nm, parseDeviceName nm d.stem = ⟨nm, N⟩ →
        (findLoop fs addr d si dns).res ≠ .found (pathJoin d.path nm)) ∧
      (⟨N, addrOld⟩ : SkipEntry) ∈ (findLoop fs addr d si dns).dir.skipped ∧
      SkipOk (findLoop fs addr d si dns).dir := by
  intro dns
  induction dns with
  | nil =>
    intro d si hok hmem hne _ _
    exact ⟨fun nm _ h => by simp [findLoop_nil] at h, hmem, hok⟩
  | cons dn rest ih =>
    intro d si hok hmem hne hnn hfix
    have hdn0 : 0 ≤ dn.n := hnn dn (List.mem_cons_self dn rest)
    have hdnfix := hfix dn (List.mem_cons_self dn rest)
    have hnnrest : ∀ x ∈ rest, 0 ≤ x.n := fun x hx => hnn x (List.mem_cons_of_mem dn hx)
    have hfixrest : ∀ x ∈ rest, parseDeviceName x.name d.stem = x :=
      fun x hx => hfix x (List.mem_cons_of_mem dn hx)
    have hNbound : 0 ≤ N ∧ N ≤ d.n := hok.2 _ hmem
    rcases findStep_cases fs addr d si dn rfl with
      ⟨e, hx, hei, hnea, hstep⟩ | ⟨e, hx, hei, heq, hstep⟩ | ⟨hnh, hg, hstep⟩
      | ⟨hnh, hg, hf, hstep⟩ | ⟨hnh, hg, hrf, hstep⟩ | ⟨hnh, hg, hrf, hstep⟩
      | ⟨hnh, hg, content, devAddr, hf, hr, hda, hstep⟩
    · rw [findLoop_cons_next hstep]
      exact ih d _ hok hmem hne hnnrest hfixrest
    · rw [findLoop_cons_done hstep]
      have hemem := getElem?_mem_skip hx
      have heneq : e ≠ ⟨N, addrOld⟩ := by
        intro hcon
        rw [hcon] at heq
        exact hne heq.symm
      refine ⟨?_, ?_, skipOk_erase hok _⟩
      · intro nm hp hfound
        dsimp only at hfound
        have hname := pathJoin_inj (FindResult.found.inj hfound)
        rw [← hname, hdnfix] at hp
        have hdnN : dn.n = N := by
          have := congrArg DeviceName.n hp
          simpa using this
        have heN : e.i = N := by omega
        have := pairwise_lt_unique hok.1 hemem hmem heN
        exact heneq this
      · dsimp only
        exact mem_takeDrop_of_ne hx hmem (fun hcon => heneq hcon.symm)
    · rw [findLoop_cons_next hstep]
      exact ih d _ hok hmem hne hnnrest hfixrest
    · rw [findLoop_cons_done hstep]
      exact ⟨fun nm _ h => by simp at h, hmem, hok⟩
    · rw [findLoop_cons_done hstep]
      exact ⟨fun nm _ h => by simp at h, hmem, hok⟩
    · rw [findLoop_cons_done hstep]
      obtain ⟨hdnlt, hall⟩ := skipOk_read_facts hok hg hdn0
      refine ⟨?_, hmem, ?_⟩
      · intro nm hp hfound
        dsimp only at hfound
        have hname := pathJoin_inj (FindResult.found.inj hfound)
        rw [← hname, hdnfix] at hp
        have hdnN : dn.n = N := by
          have := congrArg DeviceName.n hp
          simpa using this
        omega
      · refine ⟨hok.1, fun e he => ?_⟩
        have h1 := hok.2 e he
        have h2 := hall e he
        refine ⟨h1.1, ?_⟩
        show e.i ≤ dn.n
        omega
    · rw [findLoop_cons_next hstep]
      dsimp only
      have hok2 := skipOk_append hok hg hdn0 (a := devAddr)
      have hmem2 : (⟨N, addrOld⟩ : SkipEntry) ∈ d.skipped ++ [⟨dn.n, devAddr⟩] :=
        List.mem_append.mpr (.inl hmem)
      exact ih _ _ hok2 hmem2 hne hnnrest hfixrest

/-- Skip-and-replay: when the requested address is recorded in skip memory
for slot `A` (and no smaller recorded slot holds the same address), a walk
over a sorted listing containing slot `A` claims slot `A` via the skip
memory and performs no attribute read at all. -/
theorem findLoop_replay (fs : Fs) (A : Int) (addrA : Address) :
    ∀ (dns : List DeviceName) (d : DeviceDir) (si : Nat),
      SkipOk d →
      (⟨A, addrA⟩ : SkipEntry) ∈ d.skipped →
      (∀ e ∈ d.skipped, e.addr = addrA → A ≤ e.i) →
      List.Pairwise dnLE dns →
      (∃ dn ∈ dns, dn.n = A) →
      (∀ jj, jj < si → ∀ e, d.skipped[jj]? = some e → e.i < A) →
      ∃ dn ∈ dns, dn.n = A ∧
        (findLoop fs addrA d si dns).res = .found (pathJoin d.path dn.name) ∧
        (findLoop fs addrA d si dns).reads = [] := by
  intro dns
  induction dns with
  | nil =>
    intro d si _ _ _ _ hmem _
    obtain ⟨dn, hdn, -⟩ := hmem
    exact absurd hdn (List.not_mem_nil dn)
  | cons dn rest ih =>
    intro d si hok hAmem hAmin hsort hmem hcur
    have hA0A : 0 ≤ A ∧ A ≤ d.n := hok.2 _ hAmem
    rcases Int.lt_trichotomy dn.n A with hlt | heqA | hgt
    · -- dn.n < A: this entry is replayed or skipped; state unchanged.
      have hguard : 0 ≤ d.n ∧ dn.n ≤ d.n := ⟨by omega, by omega⟩
      have hmemrest : ∃ x ∈ rest, x.n = A := by
        obtain ⟨dnA, hdnAmem, hdnA⟩ := hmem
        rcases List.mem_cons.mp hdnAmem with h | h
        · subst h; omega
        · exact ⟨dnA, h, hdnA⟩
      have hcur2 : ∀ jj, jj < advanceSkip d.skipped dn.n si →
          ∀ e, d.skipped[jj]? = some e → e.i < A := by
        intro jj hjj e he
        by_cases hsi : jj < si
        · exact hcur jj hsi e he
        · obtain ⟨e', he', hlt'⟩ := (advanceSkip_spec d.skipped dn.n si).2.2.1 jj
            (by omega) hjj
          rw [he] at he'
          cases Option.some.inj he'
          omega
      rcases findStep_cases fs addrA d si dn rfl with
        ⟨e, hx, hei, hnea, hstep⟩ | ⟨e, hx, hei, heqa, hstep⟩ | ⟨hnh, hg, hstep⟩
        | ⟨hnh, hg, hf, hstep⟩ | ⟨hnh, hg, hrf, hstep⟩ | ⟨hnh, hg, hrf, hstep⟩
        | ⟨hnh, hg, content, devAddr, hf, hr, hda, hstep⟩
      · rw [findLoop_cons_next hstep]
        obtain ⟨dn', hmem', hA', hres', hreads'⟩ :=
          ih d _ hok hAmem hAmin (List.pairwise_cons.mp hsort).2 hmemrest hcur2
        exact ⟨dn', List.mem_cons_of_mem dn hmem', hA', hres', by simpa using hreads'⟩
      · have hemem := getElem?_mem_skip hx
        have := hAmin e hemem heqa
        omega
      · rw [findLoop_cons_next hstep]
        obtain ⟨dn', hmem', hA', hres', hreads'⟩ :=
          ih d _ hok hAmem hAmin (List.pairwise_cons.mp hsort).2 hmemrest hcur2
        exact ⟨dn', List.mem_cons_of_mem dn hmem', hA', hres', by simpa using hreads'⟩
      · exact absurd hguard hg
      · exact absurd hguard hg
      · exact absurd hguard hg
      · exact absurd hguard hg
    · -- dn.n = A: the cursor lands exactly on the skip entry and claims it.
      obtain ⟨k, hk, hke⟩ := List.mem_iff_getElem.mp hAmem
      have hkx : d.skipped[k]? = some ⟨A, addrA⟩ := by
        rw [List.getElem?_eq_getElem hk, hke]
      have hsik : si ≤ k := by
        by_contra hcon
        have hcon2 : (⟨A, addrA⟩ : SkipEntry).i < A := hcur k (by omega) _ hkx
        have : A < A := hcon2
        omega
      have hadv : advanceSkip d.skipped dn.n si = k := by
        refine advanceSkip_eq d.skipped dn.n hsik ?_ ⟨A, addrA⟩ hkx ?_
        · intro jj h1 h2 e he
          obtain ⟨hjl, hje⟩ := List.getElem?_eq_some.mp he
          have hpw := List.pairwise_iff_getElem.mp hok.1 jj k hjl hk h2
          simp only [skipLT] at hpw
          rw [hje] at hpw
          rw [hke] at hpw
          have : e.i < A := hpw
          omega
        · show ¬ A < dn.n
          omega
      rcases findStep_cases fs addrA d si dn hadv with
        ⟨e, hx, hei, hnea, hstep⟩ | ⟨e, hx, hei, heqa, hstep⟩ | ⟨hnh, hg, hstep⟩
        | ⟨hnh, hg, hf, hstep⟩ | ⟨hnh, hg, hrf, hstep⟩ | ⟨hnh, hg, hrf, hstep⟩
        | ⟨hnh, hg, content, devAddr, hf, hr, hda, hstep⟩
      · rw [hkx] at hx
        cases Option.some.inj hx
        exact absurd rfl hnea
      · rw [findLoop_cons_done hstep]
        exact ⟨dn, List.mem_cons_self dn rest, heqA, rfl, rfl⟩
      · rw [hkx] at *
        have := hnh _ rfl
        have hcon : A ≠ dn.n := this
        omega
      · rw [hkx] at *
        have := hnh _ rfl
        have hcon : A ≠ dn.n := this
        omega
      · rw [hkx] at *
        have := hnh _ rfl
        have hcon : A ≠ dn.n := this
        omega
      · rw [hkx] at *
        have := hnh _ rfl
        have hcon : A ≠ dn.n := this
        omega
      · rw [hkx] at *
        have := hnh _ rfl
        have hcon : A ≠ dn.n := this
        omega
    · -- dn.n > A: impossible in a sorted listing containing slot A.
      exfalso
      obtain ⟨dnA, hdnAmem, hdnA⟩ := hmem
      rcases List.mem_cons.mp hdnAmem with h | h
      · subst h; omega
      · have := (List.pairwise_cons.mp hsort).1 dnA h
        have hle : dn.n ≤ dnA.n := this
        omega

/-- A failed `Readdirnames` leaves the scanner state completely untouched. -/
theorem findByAddress_listFail {fs : Fs} {d : DeviceDir} {a : Address}
    (h : fs.dirNames = none) : findByAddress fs d a = ⟨.ioError, d, []⟩ := by
  unfold findByAddress
  rw [fsList_none h]

/-- A successful listing turns the call into a walk from cursor 0. -/
theorem findByAddress_eq_loop {fs : Fs} {d : DeviceDir} {a : Address}
    {dns : List DeviceName} (h : fsList fs d.stem = some dns) :
    findByAddress fs d a = findLoop fs a d 0 dns := by
  unfold findByAddress
  rw [h]

/-- A call never changes the configured path or stem. -/
theorem findByAddress_const (fs : Fs) (d : DeviceDir) (a : Address) :
    (findByAddress fs d a).dir.path = d.path ∧
    (findByAddress fs d a).dir.stem = d.stem := by
  cases h : fsList fs d.stem with
  | none =>
    unfold findByAddress
    rw [h]
    exact ⟨rfl, rfl⟩
  | some dns =>
    rw [findByAddress_eq_loop h]
    exact findLoop_const fs a dns d 0

/-- A call preserves skip-memory well-formedness and never lowers the
high-water mark. -/
theorem findByAddress_skipOk {fs : Fs} {d : DeviceDir} {a : Address}
    (hok : SkipOk d) (hnn : NonnegFs fs d.stem = true) :
    SkipOk (findByAddress fs d a).dir ∧ d.n ≤ (findByAddress fs d a).dir.n := by
  cases h : fsList fs d.stem with
  | none =>
    unfold findByAddress
    rw [h]
    exact ⟨hok, le_refl _⟩
  | some dns =>
    rw [findByAddress_eq_loop h]
    exact findLoop_skipOk fs a dns d 0 hok (fun dn hdn => fsList_nonneg hnn h hdn)

/-- A call on a state where slot `N` is claimed neither returns slot `N`'s
path nor disturbs the claim. -/
theorem findByAddress_avoid {fs : Fs} {d : DeviceDir} {a : Address} {N : Int}
    (h0 : 0 ≤ N) (hn : N ≤ d.n) (hsk : ∀ e ∈ d.skipped, e.i ≠ N)
    (hnn : NonnegFs fs d.stem = true) :
    (∀ nm, parseDeviceName nm d.stem = ⟨nm, N⟩ →
      (findByAddress fs d a).res ≠ .found (pathJoin d.path nm)) ∧
    N ≤ (findByAddress fs d a).dir.n ∧
    (∀ e ∈ (findByAddress fs d a).dir.skipped, e.i ≠ N) := by
  cases h : fsList fs d.stem with
  | none =>
    unfold findByAddress
    rw [h]
    exact ⟨fun nm _ hcon => by simp at hcon, hn, hsk⟩
  | some dns =>
    rw [findByAddress_eq_loop h]
    exact findLoop_avoid fs a N dns d 0 h0 hn hsk
      (fun dn hdn => fsList_nonneg hnn h hdn) (fun dn hdn => fsList_parse_fix h hdn)

/-- A successful call claims the named slot: afterwards its number is at or
below the mark and absent from skip memory. -/
theorem findByAddress_claim {fs : Fs} {d : DeviceDir} {a : Address}
    {nm : GoString} {N : Int}
    (hok : SkipOk d) (hnn : NonnegFs fs d.stem = true)
    (hp : parseDeviceName nm d.stem = ⟨nm, N⟩)
    (h : (findByAddress fs d a).res = .found (pathJoin d.path nm)) :
    0 ≤ N ∧ N ≤ (findByAddress fs d a).dir.n ∧
    ∀ e ∈ (findByAddress fs d a).dir.skipped, e.i ≠ N := by
  cases hl : fsList fs d.stem with
  | none =>
    rw [findByAddress_listFail (by
      by_contra hcon
      cases hnm : fs.dirNames with
      | none => exact hcon hnm
      | some names => rw [fsList] at hl; rw [hnm] at hl; exact Option.noConfusion hl)] at h
    simp at h
  | some dns =>
    rw [findByAddress_eq_loop hl] at h ⊢
    obtain ⟨dn, hmem, hq, h0, hle, hsk⟩ := findLoop_claim fs a dns d 0
      (pathJoin d.path nm) hok (fun x hx => fsList_nonneg hnn hl hx) h
    have hname : nm = dn.name := pathJoin_inj hq
    have hfix := fsList_parse_fix hl hmem
    rw [← hname] at hfix
    rw [hp] at hfix
    have hdnN : dn.n = N := by
      have := congrArg DeviceName.n hfix
      simpa using this.symm
    rw [hdnN] at h0 hle
    refine ⟨h0, hle, fun e he => ?_⟩
    have := hsk e he
    omega

/-- The per-call read-log facts, lifted over a possible listing failure. -/
theorem findByAddress_reads {fs : Fs} {d : DeviceDir} {a : Address}
    (hnn : NonnegFs fs d.stem = true) :
    d.n ≤ (findByAddress fs d a).dir.n ∧
    List.Pairwise (· < ·) (succSlots (findByAddress fs d a).reads) ∧
    (∀ k ∈ succSlots (findByAddress fs d a).reads,
      d.n < k ∧ k ≤ (findByAddress fs d a).dir.n) ∧
    (∀ kb ∈ (findByAddress fs d a).reads, kb.2 = false →
      (findByAddress fs d a).dir.n < kb.1) := by
  cases h : fsList fs d.stem with
  | none =>
    unfold findByAddress
    rw [h]
    refine ⟨le_refl _, ?_, ?_, ?_⟩ <;> simp [succSlots]
  | some dns =>
    rw [findByAddress_eq_loop h]
    exact findLoop_reads fs a dns d 0 (fun dn hdn => fsList_nonneg hnn h hdn)

/-- The stale-entry facts, lifted over a possible listing failure. -/
theorem findByAddress_stale {fs : Fs} {d : DeviceDir} {a : Address}
    {N : Int} {addrOld : Address}
    (hok : SkipOk d) (hmem : (⟨N, addrOld⟩ : SkipEntry) ∈ d.skipped)
    (hne : a ≠ addrOld) (hnn : NonnegFs fs d.stem = true) :
    (∀ nm, parseDeviceName nm d.stem = ⟨nm, N⟩ →
      (findByAddress fs d a).res ≠ .found (pathJoin d.path nm)) ∧
    (⟨N, addrOld⟩ : SkipEntry) ∈ (findByAddress fs d a).dir.skipped ∧
    SkipOk (findByAddress fs d a).dir := by
  cases h : fsList fs d.stem with
  | none =>
    unfold findByAddress
    rw [h]
    exact ⟨fun nm _ hcon => by simp at hcon, hmem, hok⟩
  | some dns =>
    rw [findByAddress_eq_loop h]
    exact findLoop_stale fs a N addrOld dns d 0 hok hmem hne
      (fun dn hdn => fsList_nonneg hnn h hdn) (fun dn hdn => fsList_parse_fix h hdn)

/-- Unfolding a call sequence by one call. -/
theorem callsOut_cons (fs : Fs) (a : Address) (rest : List (Fs × Address))
    (d : DeviceDir) :
    callsOut ((fs, a) :: rest) d =
      ((callsOut rest (findByAddress fs d a).dir).1,
        (findByAddress fs d a).reads ++
          (callsOut rest (findByAddress fs d a).dir).2) := rfl

/-- A call sequence keeps the configuration, the claim of slot `N`, and the
monotone high-water mark. -/
theorem callsOut_avoid (N : Int) :
    ∀ (t : List (Fs × Address)) (d : DeviceDir),
      (∀ x ∈ t, NonnegFs x.1 d.stem = true) →
      0 ≤ N → N ≤ d.n → (∀ e ∈ d.skipped, e.i ≠ N) →
      (callsOut t d).1.path = d.path ∧ (callsOut t d).1.stem = d.stem ∧
      N ≤ (callsOut t d).1.n ∧
      (∀ e ∈ (callsOut t d).1.skipped, e.i ≠ N) := by
  intro t
  induction t with
  | nil => intro d _ _ hn hsk; exact ⟨rfl, rfl, hn, hsk⟩
  | cons x rest ih =>
    intro d ht h0 hn hsk
    obtain ⟨fs, a⟩ := x
    have hfs : NonnegFs fs d.stem = true := (ht (fs, a) (List.mem_cons_self _ _))
    obtain ⟨hcp, hcs⟩ := findByAddress_const fs d a
    obtain ⟨-, hn2, hsk2⟩ := findByAddress_avoid h0 hn hsk hfs
    rw [callsOut_cons]
    have htrest : ∀ x ∈ rest, NonnegFs x.1 (findByAddress fs d a).dir.stem = true := by
      intro x hx
      rw [hcs]
      exact ht x (List.mem_cons_of_mem _ hx)
    obtain ⟨hp, hs, hn3, hsk3⟩ := ih (findByAddress fs d a).dir htrest h0 hn2 hsk2
    exact ⟨by rw [hp, hcp], by rw [hs, hcs], hn3, hsk3⟩

/-- A call sequence preserves skip-memory well-formedness. -/
theorem callsOut_skipOk :
    ∀ (t : List (Fs × Address)) (d : DeviceDir),
      SkipOk d → (∀ x ∈ t, NonnegFs x.1 d.stem = true) →
      SkipOk (callsOut t d).1 := by
  intro t
  induction t with
  | nil => intro d hok _; exact hok
  | cons x rest ih =>
    intro d hok ht
    obtain ⟨fs, a⟩ := x
    have hfs : NonnegFs fs d.stem = true := ht (fs, a) (List.mem_cons_self _ _)
    obtain ⟨hok2, -⟩ := findByAddress_skipOk hok hfs
    obtain ⟨-, hcs⟩ := findByAddress_const fs d a
    rw [callsOut_cons]
    refine ih (findByAddress fs d a).dir hok2 ?_
    intro x hx
    rw [hcs]
    exact ht x (List.mem_cons_of_mem _ hx)

/-- `succSlots` distributes over log concatenation. -/
theorem succSlots_append (rs1 rs2 : List (Int × Bool)) :
    succSlots (rs1 ++ rs2) = succSlots rs1 ++ succSlots rs2 := by
  simp [succSlots, List.filter_append]

/-- Over a whole call sequence the successfully read slots are strictly
increasing: no slot's address attribute is ever successfully read twice. -/
theorem callsOut_reads :
    ∀ (t : List (Fs × Address)) (d : DeviceDir),
      (∀ x ∈ t, NonnegFs x.1 d.stem = true) →
      d.n ≤ (callsOut t d).1.n ∧
      List.Pairwise (· < ·) (succSlots (callsOut t d).2) ∧
      (∀ k ∈ succSlots (callsOut t d).2, d.n < k ∧ k ≤ (callsOut t d).1.n) := by
  intro t
  induction t with
  | nil =>
    intro d _
    refine ⟨le_refl _, ?_, ?_⟩ <;> simp [callsOut, succSlots]
  | cons x rest ih =>
    intro d ht
    obtain ⟨fs, a⟩ := x
    have hfs : NonnegFs fs d.stem = true := ht (fs, a) (List.mem_cons_self _ _)
    obtain ⟨h1, h2, h3, -⟩ := findByAddress_reads (a := a) hfs
    obtain ⟨hcp, hcs⟩ := findByAddress_const fs d a
    have htrest : ∀ x ∈ rest, NonnegFs x.1 (findByAddress fs d a).dir.stem = true := by
      intro x hx
      rw [hcs]
      exact ht x (List.mem_cons_of_mem _ hx)
    obtain ⟨hr1, hr2, hr3⟩ := ih (findByAddress fs d a).dir htrest
    rw [callsOut_cons]
    dsimp only
    rw [succSlots_append]
    refine ⟨by omega, ?_, ?_⟩
    · rw [List.pairwise_append]
      refine ⟨h2, hr2, ?_⟩
      intro k1 hk1 k2 hk2
      have hb1 := (h3 k1 hk1).2
      have hb2 := (hr3 k2 hk2).1
      omega
    · intro k hk
      rcases List.mem_append.mp hk with h | h
      · obtain ⟨ha, hb⟩ := h3 k h
        exact ⟨ha, by omega⟩
      · obtain ⟨ha, hb⟩ := hr3 k h
        exact ⟨by omega, hb⟩

/-- A call sequence with no request for the stale address preserves the stale
entry, the state shape, and well-formedness. -/
theorem callsOut_stale (N : Int) (addrOld : Address) :
    ∀ (t : List (Fs × Address)) (d : DeviceDir),
      SkipOk d → (⟨N, addrOld⟩ : SkipEntry) ∈ d.skipped →
      (∀ x ∈ t, NonnegFs x.1 d.stem = true ∧ x.2 ≠ addrOld) →
      (callsOut t d).1.path = d.path ∧ (callsOut t d).1.stem = d.stem ∧
      SkipOk (callsOut t d).1 ∧
      (⟨N, addrOld⟩ : SkipEntry) ∈ (callsOut t d).1.skipped := by
  intro t
  induction t with
  | nil => intro d hok hmem _; exact ⟨rfl, rfl, hok, hmem⟩
  | cons x rest ih =>
    intro d hok hmem ht
    obtain ⟨fs, a⟩ := x
    obtain ⟨hfs, ha⟩ := ht (fs, a) (List.mem_cons_self _ _)
    obtain ⟨-, hmem2, hok2⟩ := findByAddress_stale hok hmem ha hfs
    obtain ⟨hcp, hcs⟩ := findByAddress_const fs d a
    rw [callsOut_cons]
    have htrest : ∀ x ∈ rest,
        NonnegFs x.1 (findByAddress fs d a).dir.stem = true ∧ x.2 ≠ addrOld := by
      intro x hx
      rw [hcs]
      exact ht x (List.mem_cons_of_mem _ hx)
    obtain ⟨hp, hs, hok3, hmem3⟩ := ih (findByAddress fs d a).dir hok2 hmem2 htrest
    exact ⟨by rw [hp, hcp], by rw [hs, hcs], hok3, hmem3⟩

/-- In a strictly increasing list every value occurs at most once. -/
theorem pairwise_lt_filter_len {l : List Int}
    (hp : List.Pairwise (· < ·) l) (N : Int) :
    (l.filter (fun k => decide (k = N))).length ≤ 1 := by
  induction l with
  | nil => simp
  | cons x xs ih =>
    rw [List.pairwise_cons] at hp
    by_cases hx : x = N
    · subst hx
      have hnil : xs.filter (fun k => decide (k = x)) = [] := by
        rw [List.filter_eq_nil_iff]
        intro k hk
        have := hp.1 k hk
        simp only [decide_eq_true_eq]
        omega
      simp [List.filter_cons, hnil]
    · have := ih hp.2
      simp only [List.filter_cons]
      rw [if_neg (by simpa using hx)]
      exact this

/-- C1, amended: in every directory listing whose entries all carry
nonnegative slot numbers (as the kernel produces — `strconv.Atoi`'s
acceptance of signed suffixes is what breaks the original claim), once a
`resolve` call returns slot `N`'s path, no later call on the same scanner —
whatever it requests and however the filesystem changes, the entry for `N`
included — returns a path for slot `N` again. -/
theorem c1_no_double_claim_amended
    (d : DeviceDir) (fs : Fs) (a : Address) (nm : GoString) (N : Int)
    (t : List (Fs × Address)) (fs2 : Fs) (a2 : Address) (nm2 : GoString)
    (hok : SkipOk d) (hfs : NonnegFs fs d.stem = true)
    (hnm : parseDeviceName nm d.stem = ⟨nm, N⟩)
    (hres : (findByAddress fs d a).res = .found (pathJoin d.path nm))
    (ht : ∀ x ∈ t, NonnegFs x.1 d.stem = true)
    (hfs2 : NonnegFs fs2 d.stem = true)
    (hnm2 : parseDeviceName nm2 d.stem = ⟨nm2, N⟩) :
    (findByAddress fs2 (callsOut t (findByAddress fs d a).dir).1 a2).res
      ≠ .found (pathJoin d.path nm2) := by
  obtain ⟨h0, hle, hsk⟩ := findByAddress_claim hok hfs hnm hres
  obtain ⟨hcp, hcs⟩ := findByAddress_const fs d a
  obtain ⟨hp, hs, hn, hske⟩ := callsOut_avoid N t (findByAddress fs d a).dir
    (by intro x hx; rw [hcs]; exact ht x hx) h0 hle hsk
  have hav := (@findByAddress_avoid fs2 (callsOut t (findByAddress fs d a).dir).1 a2 N h0 hn hske
    (by rw [hs, hcs]; exact hfs2)).1
  intro hcon
  refine hav nm2 ?_ ?_
  · rw [hs, hcs]
    exact hnm2
  · rw [hp, hcp]
    exact hcon

theorem c1_no_double_claim_amended_witness :
    SkipOk (newDeviceDir dirD stemS) ∧
    NonnegFs fsAB stemS = true ∧
    parseDeviceName [115, 48] stemS = ⟨[115, 48], 0⟩ ∧
    (findByAddress fsAB (newDeviceDir dirD stemS) (mkAddr [65])).res
      = .found (pathJoin dirD [115, 48]) ∧
    (findByAddress fsAB
        (callsOut [] (findByAddress fsAB (newDeviceDir dirD stemS) (mkAddr [65])).dir).1
        (mkAddr [65])).res ≠ .found (pathJoin dirD [115, 48]) :=
  ⟨by decide, by decide, by decide, by decide,
    c1_no_double_claim_amended (newDeviceDir dirD stemS) fsAB (mkAddr [65])
      [115, 48] 0 [] fsAB (mkAddr [65]) [115, 48]
      (by decide) (by decide) (by decide) (by decide)
      (by intro x hx; exact absurd hx (List.not_mem_nil x))
      (by decide) (by decide)⟩

/-- C2, amended: over any sequence of `resolve` calls on one scanner whose
listings only ever contain nonnegative slot numbers, the successfully read
slot numbers are strictly increasing — so each distinct slot's address
attribute is *successfully* read at most once.  (A read that fails does not
advance the high-water mark, so only failed reads can ever be repeated;
with signed slot numbers even successful reads can repeat, see the
counterexample.) -/
theorem c2_single_read_amended
    (path stem : GoString) (t : List (Fs × Address)) (N : Int)
    (ht : ∀ x ∈ t, NonnegFs x.1 stem = true) :
    List.Pairwise (· < ·) (succSlots (callsOut t (newDeviceDir path stem)).2) ∧
    ((succSlots (callsOut t (newDeviceDir path stem)).2).filter
      (fun k => decide (k = N))).length ≤ 1 := by
  have := callsOut_reads t (newDeviceDir path stem) ht
  exact ⟨this.2.1, pairwise_lt_filter_len this.2.1 N⟩

/-- Witness for the amended C2: two calls on the "s0"/"s1" directory read
slots 0 and 1 once each. -/
theorem c2_single_read_amended_witness :
    succSlots (callsOut [(fsAB, mkAddr [66]), (fsAB, mkAddr [66])]
        (newDeviceDir dirD stemS)).2 = [0, 1] ∧
    List.Pairwise (· < ·) (succSlots (callsOut [(fsAB, mkAddr [66]), (fsAB, mkAddr [66])]
        (newDeviceDir dirD stemS)).2) ∧
    ((succSlots (callsOut [(fsAB, mkAddr [66]), (fsAB, mkAddr [66])]
        (newDeviceDir dirD stemS)).2).filter (fun k => decide (k = 0))).length ≤ 1 :=
  ⟨by decide,
    (c2_single_read_amended dirD stemS [(fsAB, mkAddr [66]), (fsAB, mkAddr [66])] 0
      (by decide)).1,
    (c2_single_read_amended dirD stemS [(fsAB, mkAddr [66]), (fsAB, mkAddr [66])] 0
      (by decide)).2⟩

/-- C3: skip-and-replay.  If slot `A`'s address was read earlier and recorded
in skip memory (and no smaller recorded slot carries the same address), a
later `resolve` for that recorded address over a listing that still
contains slot `A` returns slot `A`'s path and performs no attribute read at
all — in particular no second read of slot `A`. -/
theorem c3_skip_replay
    (d : DeviceDir) (A : Int) (addrA : Address) (fs : Fs) (dns : List DeviceName)
    (hok : SkipOk d) (hA : (⟨A, addrA⟩ : SkipEntry) ∈ d.skipped)
    (hmin : ∀ e ∈ d.skipped, e.addr = addrA → A ≤ e.i)
    (hls : fsList fs d.stem = some dns) (hmem : ∃ dn ∈ dns, dn.n = A) :
    ∃ nm, (findByAddress fs d addrA).res = .found (pathJoin d.path nm) ∧
      (parseDeviceName nm d.stem).n = A ∧
      (findByAddress fs d addrA).reads = [] := by
  rw [findByAddress_eq_loop hls]
  obtain ⟨dn, hdnmem, hdnA, hres, hreads⟩ := findLoop_replay fs A addrA dns d 0
    hok hA hmin (fsList_sorted hls) hmem
    (fun jj h => absurd h (Nat.not_lt_zero jj))
  refine ⟨dn.name, hres, ?_, hreads⟩
  rw [fsList_parse_fix hls hdnmem]
  exact hdnA

/-- Witness for C3, the spec's scenario: `resolve "A"` claims "s1" and
records slot 0's address "C"; the following `resolve "C"` replays the skip
memory, returns "s0"'s path, and reads nothing from disk. -/
theorem c3_skip_replay_witness :
    SkipOk (findByAddress fs3 (newDeviceDir dirD stemS) (mkAddr [65])).dir ∧
    (⟨0, mkAddr [67]⟩ : SkipEntry)
      ∈ (findByAddress fs3 (newDeviceDir dirD stemS) (mkAddr [65])).dir.skipped ∧
    (∃ nm, (findByAddress fs3
        (findByAddress fs3 (newDeviceDir dirD stemS) (mkAddr [65])).dir
        (mkAddr [67])).res
        = .found (pathJoin (findByAddress fs3 (newDeviceDir dirD stemS)
            (mkAddr [65])).dir.path nm) ∧
      (parseDeviceName nm (findByAddress fs3 (newDeviceDir dirD stemS)
          (mkAddr [65])).dir.stem).n = 0 ∧
      (findByAddress fs3
        (findByAddress fs3 (newDeviceDir dirD stemS) (mkAddr [65])).dir
        (mkAddr [67])).reads = []) :=
  ⟨by decide, by decide,
    c3_skip_replay (findByAddress fs3 (newDeviceDir dirD stemS) (mkAddr [65])).dir
      0 (mkAddr [67]) fs3
      [⟨[115, 48], 0⟩, ⟨[115, 49], 1⟩, ⟨[115, 50], 2⟩]
      (by decide) (by decide) (by decide) (by decide) (by decide)⟩

/-- C4, amended: a stale skip-memory entry for slot `N` (recorded address
`addrOld`, never matched) makes slot `N` invisible to every later `resolve`
whose requested address differs from `addrOld` — in particular, a device
recreated at slot `N` can never be found under its own (new) address.  A
`resolve` for the stale address `addrOld` itself, however, still returns
slot `N`'s path (see the counterexample against the original claim). -/
theorem c4_masking_amended
    (d : DeviceDir) (N : Int) (addrOld : Address)
    (t : List (Fs × Address)) (fs : Fs) (a : Address) (nm : GoString)
    (hok : SkipOk d) (hA : (⟨N, addrOld⟩ : SkipEntry) ∈ d.skipped)
    (ht : ∀ x ∈ t, NonnegFs x.1 d.stem = true ∧ x.2 ≠ addrOld)
    (ha : a ≠ addrOld) (hfs : NonnegFs fs d.stem = true)
    (hnm : parseDeviceName nm d.stem = ⟨nm, N⟩) :
    (findByAddress fs (callsOut t d).1 a).res ≠ .found (pathJoin d.path nm) := by
  obtain ⟨hp, hs, hok2, hmem2⟩ := callsOut_stale N addrOld t d hok hA ht
  have hst := (findByAddress_stale (a := a) hok2 hmem2 ha
    (by rw [hs]; exact hfs)).1
  intro hcon
  refine hst nm ?_ ?_
  · rw [hs]
    exact hnm
  · rw [hp]
    exact hcon

/-- Witness for the amended C4: slot 0 skipped with address "X", then the
device is replaced by one with address "Z"; a `resolve` for "Z" (or any
address other than "X") does not return slot 0's path. -/
theorem c4_masking_amended_witness :
    SkipOk (findByAddress fsX (newDeviceDir dirD stemS) (mkAddr [66])).dir ∧
    (⟨0, mkAddr [88]⟩ : SkipEntry)
      ∈ (findByAddress fsX (newDeviceDir dirD stemS) (mkAddr [66])).dir.skipped ∧
    (findByAddress fsZ
        (callsOut [] (findByAddress fsX (newDeviceDir dirD stemS) (mkAddr [66])).dir).1
        (mkAddr [90])).res
      ≠ .found (pathJoin (findByAddress fsX (newDeviceDir dirD stemS)
          (mkAddr [66])).dir.path [115, 48]) :=
  ⟨by decide, by decide,
    c4_masking_amended (findByAddress fsX (newDeviceDir dirD stemS) (mkAddr [66])).dir
      0 (mkAddr [88]) [] fsZ (mkAddr [90]) [115, 48]
      (by decide) (by decide)
      (by intro x hx; exact absurd hx (List.not_mem_nil x))
      (by decide) (by decide) (by decide)⟩

/-- Only the empty stem is a prefix of the empty name. -/
theorem hasPrefixB_nil {stem : GoString} (h : hasPrefixB stem [] = true) :
    stem = [] := by
  cases stem with
  | nil => rfl
  | cons a p => exact absurd h (by simp [hasPrefixB])

/-- `parseDeviceName` accepts a name exactly when it starts with the stem
and `strconv.Atoi` accepts the remainder (an optional sign, then digits,
within the 64-bit range). -/
theorem parseDeviceName_accepts (nm stem : GoString) :
    parseDeviceName nm stem ≠ ⟨[], 0⟩ ↔
      hasPrefixB stem nm = true ∧ (goAtoi (nm.drop stem.length)).isSome = true := by
  constructor
  · intro hne
    unfold parseDeviceName at hne
    split at hne
    · refine ⟨by assumption, ?_⟩
      cases hat : goAtoi (nm.drop stem.length) with
      | none => simp only [hat] at hne; exact absurd rfl hne
      | some k => simp
    · exact absurd rfl hne
  · rintro ⟨hpre, hsome⟩
    unfold parseDeviceName
    rw [if_pos hpre]
    cases hat : goAtoi (nm.drop stem.length) with
    | none => rw [hat] at hsome; simp at hsome
    | some k =>
      intro hcon
      have hname : nm = [] := congrArg DeviceName.name hcon
      subst hname
      have hstem : stem = [] := hasPrefixB_nil hpre
      subst hstem
      simp [goAtoi] at hat

/-- C5, amended: the listing includes an entry exactly when its name is the
stem followed by a remainder accepted by `strconv.Atoi` — an optional
`+`/`-` sign and at least one digit, within the 64-bit integer range (so
signed suffixes like "s-1" are *included*, and overlong digit strings are
excluded; the spec's "stem followed by digits" is the unsigned in-range
special case).  Entries like "b0" and "sX" are excluded, and resolving any
address against a directory with only such entries yields NotFound with the
state untouched. -/
theorem c5_listing_amended (nm stem : GoString) (a : Address) :
    (parseDeviceName nm stem ≠ ⟨[], 0⟩ ↔
      hasPrefixB stem nm = true ∧ (goAtoi (nm.drop stem.length)).isSome = true) ∧
    parseDeviceName [98, 48] stemS = ⟨[], 0⟩ ∧
    parseDeviceName [115, 88] stemS = ⟨[], 0⟩ ∧
    findByAddress fsJunk (newDeviceDir dirD stemS) a
      = ⟨.notFound, newDeviceDir dirD stemS, []⟩ := by
  refine ⟨parseDeviceName_accepts nm stem, by decide, by decide, rfl⟩

/-- Witness for the amended C5: "s7" is accepted, "sX" is not. -/
theorem c5_listing_amended_witness :
    (parseDeviceName [115, 55] stemS ≠ ⟨[], 0⟩ ↔
      hasPrefixB stemS [115, 55] = true ∧
        (goAtoi ([115, 55].drop stemS.length)).isSome = true) ∧
    parseDeviceName [98, 48] stemS = ⟨[], 0⟩ ∧
    findByAddress fsJunk (newDeviceDir dirD stemS) (mkAddr [65])
      = ⟨.notFound, newDeviceDir dirD stemS, []⟩ :=
  ⟨(c5_listing_amended [115, 55] stemS (mkAddr [65])).1,
    (c5_listing_amended [115, 55] stemS (mkAddr [65])).2.1,
    (c5_listing_amended [115, 55] stemS (mkAddr [65])).2.2.2⟩

/-- C6: deletion removes visibility.  (1) Any successful `resolve` returns
the path of an entry of the *current* listing, so a deleted directory —
claimed or skipped — is never returned.  (2) The skip cursor never runs
past the end of the skip memory (the merge-scan is in bounds).  (3) The
spec's scenario: after `resolve "A"` → "s1", deleting "s0" makes
`resolve "C"` (the address recorded for the deleted slot 0) return
NotFound rather than resolving or crashing. -/
theorem c6_deletion_safety (fs : Fs) (d : DeviceDir) (a : Address)
    (q : GoString) (sk : List SkipEntry) (m : Int) (i : Nat) :
    ((findByAddress fs d a).res = .found q →
       ∃ dns, fsList fs d.stem = some dns ∧
         ∃ dn ∈ dns, q = pathJoin d.path dn.name) ∧
    (i ≤ sk.length → advanceSkip sk m i ≤ sk.length) ∧
    ((findByAddress fs3 (newDeviceDir dirD stemS) (mkAddr [65])).res
        = .found (pathJoin dirD [115, 49]) ∧
      (findByAddress fs3del
          (findByAddress fs3 (newDeviceDir dirD stemS) (mkAddr [65])).dir
          (mkAddr [67])).res = .notFound) := by
  refine ⟨?_, (advanceSkip_spec sk m i).2.1, by decide, by decide⟩
  intro h
  cases hl : fsList fs d.stem with
  | none =>
    rw [findByAddress_listFail (by
      by_contra hcon
      cases hnm : fs.dirNames with
      | none => exact hcon hnm
      | some names => rw [fsList, hnm] at hl; exact Option.noConfusion hl)] at h
    simp at h
  | some dns =>
    rw [findByAddress_eq_loop hl] at h
    exact ⟨dns, rfl, findLoop_found fs a dns d 0 q h⟩

/-- Witness for C6 at concrete inputs. -/
theorem c6_deletion_safety_witness :
    (∃ dns, fsList fs3 (newDeviceDir dirD stemS).stem = some dns ∧
       ∃ dn ∈ dns, pathJoin dirD [115, 49]
         = pathJoin (newDeviceDir dirD stemS).path dn.name) ∧
    advanceSkip [] 0 0 ≤ ([] : List SkipEntry).length :=
  ⟨(c6_deletion_safety fs3 (newDeviceDir dirD stemS) (mkAddr [65])
      (pathJoin dirD [115, 49]) [] 0 0).1 (by decide),
    (c6_deletion_safety fs3 (newDeviceDir dirD stemS) (mkAddr [65])
      (pathJoin dirD [115, 49]) [] 0 0).2.1 (by decide)⟩

/-- C7, amended: a listing failure leaves the scanner state (high-water mark
and skip memory) completely unchanged; on a call that fails at step 2d,
every *successfully* read slot lies above the old mark and at or below the
new one (the state advanced for them), while the slot whose read threw lies
strictly *above* the final mark — the mark is advanced only after a
successful read, never for the slot whose read failed. -/
theorem c7_failure_state_amended (fs : Fs) (d : DeviceDir) (a : Address) :
    (fs.dirNames = none → findByAddress fs d a = ⟨.ioError, d, []⟩) ∧
    (NonnegFs fs d.stem = true →
      ∀ (k : Int) (b : Bool), (k, b) ∈ (findByAddress fs d a).reads →
        (b = true → d.n < k ∧ k ≤ (findByAddress fs d a).dir.n) ∧
        (b = false → (findByAddress fs d a).dir.n < k)) := by
  refine ⟨fun h => findByAddress_listFail h, ?_⟩
  intro hnn k b hmem
  obtain ⟨-, -, hsucc, hfail⟩ := findByAddress_reads (a := a) hnn
  constructor
  · intro hb
    subst hb
    have hks : k ∈ succSlots (findByAddress fs d a).reads := by
      simp only [succSlots, List.mem_map, List.mem_filter]
      exact ⟨(k, true), ⟨hmem, rfl⟩, rfl⟩
    exact hsucc k hks
  · intro hb
    subst hb
    exact hfail (k, false) hmem rfl

/-- Witness for the amended C7: a failed listing returns the state verbatim,
and the failed read of slot 0 leaves the mark at -1 < 0. -/
theorem c7_failure_state_amended_witness :
    findByAddress fsNone (newDeviceDir dirD stemS) (mkAddr [65])
      = ⟨.ioError, newDeviceDir dirD stemS, []⟩ ∧
    (findByAddress fsBad (newDeviceDir dirD stemS) (mkAddr [66])).dir.n < 0 :=
  ⟨(c7_failure_state_amended fsNone (newDeviceDir dirD stemS) (mkAddr [65])).1 rfl,
    ((c7_failure_state_amended fsBad (newDeviceDir dirD stemS) (mkAddr [66])).2
      (by decide) 0 false (by decide)).2 rfl⟩

/-- C8, amended: provided every listing only contains nonnegative slot
numbers, the skip memory of a scanner stays strictly sorted ascending
across any sequence of calls without ever being re-sorted — each appended
entry's slot exceeds every slot already present.  (With signed slot
suffixes the high-water mark can go negative and order is lost, see the
counterexample.) -/
theorem c8_sorted_amended (path stem : GoString) (t : List (Fs × Address))
    (ht : ∀ x ∈ t, NonnegFs x.1 stem = true) :
    List.Pairwise skipLT (callsOut t (newDeviceDir path stem)).1.skipped :=
  (callsOut_skipOk t (newDeviceDir path stem)
    ⟨List.Pairwise.nil, by simp [newDeviceDir]⟩ ht).1

/-- Witness for the amended C8: after one call on the two-device directory
the skip memory [(0, "A"), (1, "B")] is strictly sorted. -/
theorem c8_sorted_amended_witness :
    ((callsOut [(fsAB, mkAddr [67])] (newDeviceDir dirD stemS)).1.skipped.map
      (fun e => e.i) = [0, 1]) ∧
    List.Pairwise skipLT (callsOut [(fsAB, mkAddr [67])]
      (newDeviceDir dirD stemS)).1.skipped :=
  ⟨by decide, c8_sorted_amended dirD stemS [(fsAB, mkAddr [67])] (by decide)⟩
